import Mathlib

/-!
# zearcut boundary glue (`libs/zearcut/src/earcut_impl.cc`, `earcut_impl.h`)

A shallow embedding of the C boundary of the triangulation library:
the replaced global `operator new` / `operator delete`, `earcut_set_allocator`,
`earcut_create` and `earcut_free`.

Modelling conventions.

* Assertions are compiled in (`NDEBUG` undefined); a failing `assert` aborts the
  process, which is the outcome `Outcome.abort`, carrying the state reached.
* The two caller-supplied functions are values of the function-pointer types of the
  header. Every invocation of one of them is appended to `State.calls`.
* Raw addresses are natural numbers and `0` is the null pointer. Caller records
  (`earcut_result_t`) and 32-bit index buffers live in two separate stores.
* `std::vector` is modelled by its elements, its storage pointer and its capacity;
  its storage is obtained and released through the replaced operators, as
  `std::allocator` does. The default `operator new[]` / `operator delete[]` forward to
  `operator new` / `operator delete`.
* `mapbox::earcut` is not part of these two files. It is a parameter: for each polygon
  it gives the index list it returns and the allocator traffic it performs.
* Writing through a null pointer is undefined behaviour: `Outcome.undefined`.
-/

namespace Earcut

/-- Raw address. `0` is the null pointer. -/
abbrev Ptr := Nat

/-- One invocation of a caller-supplied function: `g_alloc_fn(n)` returning `p`, or
`g_free_fn(p)`. -/
inductive Call where
  | alloc (n : Nat) (p : Ptr)
  | free (p : Ptr)
  deriving DecidableEq, Repr

/-- Header type `typedef void*(*EarcutAllocFnType)(size_t)`. The buffer returned may depend
on the calls made so far. -/
abbrev EarcutAllocFnType := List Call → Nat → Ptr

/-- Header type `typedef void(*EarcutFreeFnType)(void*)`. -/
abbrev EarcutFreeFnType := Ptr → Unit

/-- Single-precision value, by its bit pattern. -/
structure float where
  bits : Nat
  deriving DecidableEq, Repr

/-- Double-precision value (`using Coord = double`), by its bit pattern. -/
structure double where
  bits : Nat
  deriving DecidableEq, Repr

/-- Header type `vec2_t`. -/
structure vec2_t where
  x : float
  y : float
  deriving DecidableEq, Repr

/-- Header type `earcut_result_t`. -/
structure earcut_result_t where
  num_indices : Nat
  indices : Ptr
  deriving DecidableEq, Repr

/-- Source alias `using Point = std::array<Coord, 2>`. -/
abbrev Point := double × double

/-- One allocator request made inside the engine: `operator new(n)`, or `operator delete`
applied to the buffer of the engine's `k`-th request (counted from `0`). -/
inductive EngineOp where
  | new (n : Nat)
  | delete (k : Nat)
  deriving DecidableEq, Repr

/-- What one call of `mapbox::earcut<N>` does, as far as the boundary can see: the allocator
requests it makes, in order, the elements of the `std::vector<N>` it returns, and which of its
requests backs that vector (`none`: the vector has no storage). -/
structure EarcutRun where
  ops : List EngineOp
  indices : List Nat
  buffer : Option Nat

/-- The parts the two source files take from the compiler and the libraries. -/
structure Platform where
  /-- the implicit conversion `float → double` in `{ points[i].x, points[i].y }` -/
  widen : float → double
  /-- growth policy of `std::vector`: the capacity asked for when a vector of capacity `c` is full -/
  grow : Nat → Nat
  /-- the engine `mapbox::earcut<N>` -/
  earcut : List (List Point) → EarcutRun

/-- Size of `Point`, two doubles. -/
def sizeof_Point : Nat := 16

/-- Size of `std::vector<Point>`, three pointers on the 64-bit targets. -/
def sizeof_ring : Nat := 24

/-- Size of `uint32_t`. -/
def sizeof_uint32_t : Nat := 4

/-- Process state seen by the boundary. -/
structure State where
  /-- line 15: `static EarcutAllocFnType g_alloc_fn` (`none` is `NULL`) -/
  g_alloc_fn : Option EarcutAllocFnType
  /-- line 16: `static EarcutFreeFnType g_free_fn` (`none` is `NULL`) -/
  g_free_fn : Option EarcutFreeFnType
  /-- invocations of the two configured functions so far, oldest first -/
  calls : List Call
  /-- polygons passed to the engine so far, oldest first -/
  handed : List (List (List Point))
  /-- caller memory holding `earcut_result_t` records -/
  records : Ptr → earcut_result_t
  /-- contents of the 32-bit index buffers -/
  mem : Ptr → List Nat

/-- Result of running a piece of the program. -/
inductive Outcome (α : Type) where
  | ok (a : α) (s : State)
  | abort (s : State)
  | undefined

/-- A piece of the program: a function of the process state. -/
def M (α : Type) : Type := State → Outcome α

/-- Sequencing: an abort or undefined behaviour ends the run. -/
def M.bind {α β : Type} (x : M α) (f : α → M β) : M β := fun s =>
  match x s with
  | .ok a s' => f a s'
  | .abort s' => .abort s'
  | .undefined => .undefined

instance : Monad M where
  pure a := fun s => .ok a s
  bind := M.bind

/-- The C macro `assert(c)`. -/
def assert (c : Bool) : M Unit := fun s =>
  if c then .ok () s else .abort s

/-- Undefined behaviour. -/
def undefined {α : Type} : M α := fun _ => .undefined

/-- Lines 18-24: the replaced `operator new(std::size_t n)`. -/
def operator_new (n : Nat) : M Ptr := fun s =>
  match s.g_alloc_fn with
  | none => .abort s
  | some alloc_fn =>
    match s.g_free_fn with
    | none => .abort s
    | some _ =>
      if n = 0 then .abort s
      else .ok (alloc_fn s.calls n) { s with calls := s.calls ++ [Call.alloc n (alloc_fn s.calls n)] }

/-- Lines 26-32: the replaced `operator delete(void* p)`. -/
def operator_delete (p : Ptr) : M Unit := fun s =>
  match s.g_alloc_fn with
  | none => .abort s
  | some _ =>
    match s.g_free_fn with
    | none => .abort s
    | some _ =>
      if p = 0 then .abort s
      else .ok () { s with calls := s.calls ++ [Call.free p] }

/-- Lines 36-39: `earcut_set_allocator`. -/
def earcut_set_allocator (alloc_fn : Option EarcutAllocFnType) (free_fn : Option EarcutFreeFnType)
    (s : State) : State :=
  { s with g_alloc_fn := alloc_fn, g_free_fn := free_fn }

/-- Storage for library objects: `operator new(n)`, whose result is written through at once. -/
def allocate (n : Nat) : M Ptr := do
  let p ← operator_new n
  if p = 0 then undefined else pure p

/-- A `std::vector`: its elements, its storage (`0` when it has none) and its capacity. -/
structure vector (α : Type) where
  elems : List α
  data : Ptr
  cap : Nat

/-- A default-constructed `std::vector`. -/
def vector.empty {α : Type} : vector α := { elems := [], data := 0, cap := 0 }

/-- Release of a vector's storage, when it has one. -/
def vector.deallocate {α : Type} (v : vector α) : M Unit :=
  if v.data = 0 then pure () else operator_delete v.data

/-- The call `v.push_back(x)` for elements of `esize` bytes; `mk` constructs the new element in
place. A full vector first moves to fresh storage of the grown capacity. -/
def vector.push_back {α : Type} (P : Platform) (esize : Nat) (v : vector α) (mk : M α) :
    M (vector α) :=
  if v.elems.length < v.cap then do
    let x ← mk
    pure { v with elems := v.elems ++ [x] }
  else do
    let c := max (P.grow v.cap) (v.cap + 1)
    let p ← allocate (c * esize)
    let x ← mk
    v.deallocate
    pure { elems := v.elems ++ [x], data := p, cap := c }

/-- Copy construction of a `std::vector<Point>`. -/
def vector.copy (v : vector Point) : M (vector Point) :=
  if v.elems.length = 0 then pure vector.empty
  else do
    let p ← allocate (v.elems.length * sizeof_Point)
    pure { elems := v.elems, data := p, cap := v.elems.length }

/-- Destruction of a `std::vector<std::vector<Point>>`: the elements, then the storage. -/
def destroy_rings : List (vector Point) → M Unit
  | [] => pure ()
  | r :: rest => do
    r.deallocate
    destroy_rings rest

/-- The allocator requests of one engine run, in order; `ptrs` are the buffers the engine has
obtained so far. -/
def run_ops : List EngineOp → List Ptr → M (List Ptr)
  | [], ptrs => pure ptrs
  | EngineOp.new n :: rest, ptrs => do
    let p ← allocate n
    run_ops rest (ptrs ++ [p])
  | EngineOp.delete k :: rest, ptrs =>
    match ptrs.get? k with
    | none => undefined
    | some p => do
      operator_delete p
      run_ops rest ptrs

/-- The call `mapbox::earcut<N>(polygon)` of line 65. -/
def call_earcut (P : Platform) (polygon : vector (vector Point)) : M (vector Nat) := fun s =>
  let arg := polygon.elems.map (fun r => r.elems)
  let run := P.earcut arg
  (do
    let ptrs ← run_ops run.ops []
    match run.buffer with
    | none =>
      if run.indices = [] then pure vector.empty else undefined
    | some k =>
      match ptrs.get? k with
      | none => undefined
      | some p => pure { elems := run.indices, data := p, cap := run.indices.length })
    { s with handed := s.handed ++ [arg] }

/-- Lines 56-58: `k` iterations of the loop, starting at index `i`. -/
def fill_vertices (P : Platform) (points : Nat → vec2_t) :
    Nat → Nat → vector Point → M (vector Point)
  | _, 0, vertices => pure vertices
  | i, k + 1, vertices => do
    let vertices ← vertices.push_back P sizeof_Point
      (pure (P.widen (points i).x, P.widen (points i).y))
    fill_vertices P points (i + 1) k vertices

/-- Line 68: `result->num_indices = ...`. -/
def set_num_indices (result : Ptr) (n : Nat) : M Unit := fun s =>
  .ok () { s with records := Function.update s.records result { s.records result with num_indices := n } }

/-- Line 69: `result->indices = ...`. -/
def set_indices (result : Ptr) (p : Ptr) : M Unit := fun s =>
  .ok () { s with records := Function.update s.records result { s.records result with indices := p } }

/-- A read of `result->num_indices`. -/
def get_num_indices (result : Ptr) : M Nat := fun s =>
  .ok (s.records result).num_indices s

/-- A read of `result->indices`. -/
def get_indices (result : Ptr) : M Ptr := fun s =>
  .ok (s.records result).indices s

/-- Line 70: `memcpy(dst, src.data(), sizeof(uint32_t) * n)` of the first `n` elements. -/
def memcpy (dst : Ptr) (src : List Nat) (n : Nat) : M Unit := fun s =>
  if n = 0 then .ok () s
  else if dst = 0 then .undefined
  else .ok () { s with mem := Function.update s.mem dst (src.take n) }

/-- Lines 67-70, "Fill result structure": the count is stored, the buffer of
`sizeof(uint32_t) * result->num_indices` bytes is requested by `new uint32_t[...]` and stored,
the indices are copied into it. The product does not wrap: a `std::vector<uint32_t>` holds
fewer than `2 ^ 62` elements. -/
def fill_result (result : Ptr) (indices : vector Nat) : M Unit := do
  set_num_indices result indices.elems.length
  let n ← get_num_indices result
  let p ← operator_new (sizeof_uint32_t * n)
  set_indices result p
  let dst ← get_indices result
  let n ← get_num_indices result
  memcpy dst indices.elems n

/-- Lines 41-71: `earcut_create`. `points` is `none` for a null pointer, otherwise the array it
points to; `result` is the address of the caller's record. -/
def earcut_create (P : Platform) (num_points : Nat) (points : Option (Nat → vec2_t))
    (result : Ptr) : M Unit := do
  assert (decide (num_points ≥ 3))
  assert points.isSome
  assert (decide (result ≠ 0))
  match points with
  | none => undefined
  | some pts =>
    let polygon : vector (vector Point) := vector.empty
    let vertices : vector Point := vector.empty
    let vertices ← fill_vertices P pts 0 num_points vertices
    let polygon ← polygon.push_back P sizeof_ring vertices.copy
    let indices ← call_earcut P polygon
    fill_result result indices
    indices.deallocate
    vertices.deallocate
    destroy_rings polygon.elems
    polygon.deallocate

/-- Lines 73-79: `earcut_free`. -/
def earcut_free (result : Ptr) : M Unit := do
  assert (decide (result ≠ 0))
  let n ← get_num_indices result
  assert (decide (n ≠ 0))
  let p ← get_indices result
  assert (decide (p ≠ 0))
  let p ← get_indices result
  operator_delete p

/-- The state a process starts in: both function pointers are `NULL` (lines 15-16), nothing has
been called, all caller records and buffers are zeroed. -/
def State.initial : State :=
  { g_alloc_fn := none, g_free_fn := none, calls := [], handed := [],
    records := fun _ => { num_indices := 0, indices := 0 }, mem := fun _ => [] }

/-- The state `s` after the further allocator calls `t`. -/
def State.log (s : State) (t : List Call) : State :=
  { s with calls := s.calls ++ t }

/-- The ring `earcut_create` builds from the first `num_points` elements of `points`. -/
def marshal (P : Platform) (points : Nat → vec2_t) (num_points : Nat) : List Point :=
  (List.range num_points).map (fun i => (P.widen (points i).x, P.widen (points i).y))

/-- Every state the outcome carries has `h` as the polygons handed to the engine. -/
def Outcome.handed_is {α : Type} (o : Outcome α) (h : List (List (List Point))) : Prop :=
  match o with
  | .ok _ s' => s'.handed = h
  | .abort s' => s'.handed = h
  | .undefined => True

/-- A piece of the program that hands nothing to the engine. -/
def Keeps {α : Type} (x : M α) : Prop := ∀ s, (x s).handed_is s.handed

/-- The outcome of a run that started with `h0` handed: a return has handed `arg` and nothing
else, an abort has handed nothing or `arg`. -/
def Outcome.hands {α : Type} (o : Outcome α) (h0 : List (List (List Point)))
    (arg : List (List Point)) : Prop :=
  match o with
  | .ok _ s' => s'.handed = h0 ++ [arg]
  | .abort s' => s'.handed = h0 ∨ s'.handed = h0 ++ [arg]
  | .undefined => True

/-- Buffers outstanding after the calls `t`, starting from the outstanding buffers `m`: each
`alloc` adds the buffer it returned, each `free` removes one copy of the buffer it is given.
`none` when a buffer is freed that is not outstanding. -/
def outstanding : Multiset Ptr → List Call → Option (Multiset Ptr)
  | m, [] => some m
  | m, Call.alloc _ p :: t => outstanding (p ::ₘ m) t
  | m, Call.free p :: t => if p ∈ m then outstanding (m.erase p) t else none

/-- The calls `t` turn the outstanding buffers `pre` into `post`, whatever else is outstanding. -/
def Bal (pre post : Multiset Ptr) (t : List Call) : Prop :=
  ∀ m, outstanding (m + pre) t = some (m + post)

/-- The storage of a vector as a set of outstanding buffers. -/
def stor (d : Ptr) : Multiset Ptr := if d = 0 then 0 else {d}

/-- The calls made by the release of a vector's storage `d`. -/
def frees (d : Ptr) : List Call := if d = 0 then [] else [Call.free d]

/-- Check of an engine's request list: `cnt` requests were made before, `lv` are the ones whose
buffer is still held. Gives the requests still held at the end; `none` when a request asks for
zero bytes or a release names a buffer that is not held. -/
def ops_live : List EngineOp → Nat → List Nat → Option (List Nat)
  | [], _, lv => some lv
  | EngineOp.new n :: rest, cnt, lv =>
    if n = 0 then none else ops_live rest (cnt + 1) (lv ++ [cnt])
  | EngineOp.delete k :: rest, cnt, lv =>
    if k ∈ lv then ops_live rest cnt (lv.erase k) else none

/-- The buffers behind the engine requests `lv`, given the buffers `ptrs` obtained so far. -/
def held (ptrs : List Ptr) (lv : List Nat) : Multiset Ptr :=
  Multiset.ofList (lv.map (fun k => (ptrs.get? k).getD 0))

/-- An engine run that releases every buffer it obtained except the storage of the vector it
returns, and returns elements only in a vector that has storage. -/
def EarcutRun.balanced (r : EarcutRun) : Bool :=
  decide (ops_live r.ops 0 [] = some r.buffer.toList) &&
    (r.buffer.isSome || decide (r.indices = []))

/-- The value-preserving conversion of a binary32 bit pattern to binary64. -/
def widen_ieee (v : float) : double :=
  let b := v.bits % 2 ^ 32
  let s := b / 2 ^ 31
  let e := (b / 2 ^ 23) % 256
  let m := b % 2 ^ 23
  if e = 255 then
    { bits := s * 2 ^ 63 + 2047 * 2 ^ 52 +
        (if m = 0 then 0 else if (m / 2 ^ 22) % 2 = 1 then m * 2 ^ 29 else m * 2 ^ 29 + 2 ^ 51) }
  else if e = 0 then
    if m = 0 then { bits := s * 2 ^ 63 }
    else { bits := s * 2 ^ 63 + (Nat.log2 m + 874) * 2 ^ 52 + (m - 2 ^ Nat.log2 m) * 2 ^ (52 - Nat.log2 m) }
  else { bits := s * 2 ^ 63 + (e + 896) * 2 ^ 52 + m * 2 ^ 29 }

/-- A stand-in engine for the concrete examples: one scratch pool and the index vector are
requested, the pool is released; a ring of fewer than 3 distinct points gives no triangle (the
engine's rule for undersized rings), any other ring a fan around its first point. -/
def fan_earcut (polygon : List (List Point)) : EarcutRun :=
  let ring := polygon.headD []
  let len := ring.length
  { ops := [EngineOp.new (len * 3 / 2 * 64), EngineOp.new ((len + len) * 4), EngineOp.delete 0],
    indices :=
      if ring.dedup.length < 3 then []
      else (List.range (len - 2)).flatMap (fun i => [0, i + 1, i + 2]),
    buffer := some 1 }

/-- The platform of the concrete examples: doubling vectors, the stand-in engine. -/
def example_platform : Platform :=
  { widen := widen_ieee, grow := fun c => 2 * c, earcut := fan_earcut }

/-- A bump allocator: the `k`-th call returns address `k + 1`. -/
def bump_alloc : EarcutAllocFnType := fun t _ => t.length + 1

/-- A free function. -/
def noop_free : EarcutFreeFnType := fun _ => ()

/-- The initial state after `earcut_set_allocator(bump_alloc, noop_free)`. -/
def example_state : State :=
  earcut_set_allocator (some bump_alloc) (some noop_free) State.initial

/-- The configured state with every record holding 3 indices in buffer 11. -/
def held_result_state : State :=
  { example_state with records := fun _ => { num_indices := 3, indices := 11 } }

/-- The unit right triangle `(0,0), (1,0), (0,1)`, then zeros. -/
def triangle_points : Nat → vec2_t
  | 0 => { x := { bits := 0 }, y := { bits := 0 } }
  | 1 => { x := { bits := 0x3F800000 }, y := { bits := 0 } }
  | 2 => { x := { bits := 0 }, y := { bits := 0x3F800000 } }
  | _ => { x := { bits := 0 }, y := { bits := 0 } }

/-- An array whose points all coincide at the origin. -/
def coincident_points : Nat → vec2_t :=
  fun _ => { x := { bits := 0 }, y := { bits := 0 } }

/-- A piece of the program whose only effect, when it returns, is further allocator calls. -/
def Logs {α : Type} (x : M α) : Prop :=
  ∀ s a s', x s = .ok a s' → ∃ t, s' = s.log t

/-- A piece of the program whose only effect, when it returns, is calls of the free function. -/
def Releases {α : Type} (x : M α) : Prop :=
  ∀ s a s', x s = .ok a s' → ∃ t, s' = s.log t ∧ ∀ c ∈ t, ∃ q, c = Call.free q

/-! ## Running pieces of the program -/

theorem bind_run {α β : Type} (x : M α) (f : α → M β) (s : State) :
    (x >>= f) s = match x s with
      | .ok a s' => f a s'
      | .abort s' => .abort s'
      | .undefined => .undefined := rfl

theorem bind_ok {α β : Type} {x : M α} {s s' : State} {a : α} (h : x s = .ok a s')
    (f : α → M β) : (x >>= f) s = f a s' := by
  rw [bind_run, h]

theorem bind_abort {α β : Type} {x : M α} {s s' : State} (h : x s = .abort s')
    (f : α → M β) : (x >>= f) s = .abort s' := by
  rw [bind_run, h]

theorem pure_run {α : Type} (a : α) (s : State) : (pure a : M α) s = .ok a s := rfl

theorem assert_true (s : State) : assert true s = .ok () s := rfl

theorem assert_false (s : State) : assert false s = .abort s := rfl

theorem log_nil (s : State) : s.log [] = s := by
  simp [State.log]

theorem log_log (s : State) (t u : List Call) : (s.log t).log u = s.log (t ++ u) := by
  simp [State.log, List.append_assoc]

theorem operator_new_run {s : State} {a : EarcutAllocFnType} {f : EarcutFreeFnType}
    (ha : s.g_alloc_fn = some a) (hf : s.g_free_fn = some f) {n : Nat} (hn : n ≠ 0) :
    operator_new n s = .ok (a s.calls n) (s.log [Call.alloc n (a s.calls n)]) := by
  simp [operator_new, ha, hf, hn, State.log]

theorem operator_new_zero (s : State) : operator_new 0 s = .abort s := by
  unfold operator_new
  cases s.g_alloc_fn <;> cases s.g_free_fn <;> rfl

theorem operator_new_unconfigured {s : State} (h : s.g_alloc_fn = none ∨ s.g_free_fn = none)
    (n : Nat) : operator_new n s = .abort s := by
  unfold operator_new
  rcases h with h | h
  · rw [h]
  · rw [h]
    cases s.g_alloc_fn <;> rfl

theorem allocate_run {s : State} {a : EarcutAllocFnType} {f : EarcutFreeFnType}
    (ha : s.g_alloc_fn = some a) (hf : s.g_free_fn = some f) (hnn : ∀ t n, a t n ≠ 0)
    {n : Nat} (hn : n ≠ 0) :
    allocate n s = .ok (a s.calls n) (s.log [Call.alloc n (a s.calls n)]) := by
  unfold allocate
  rw [bind_ok (operator_new_run ha hf hn), if_neg (hnn _ _)]
  rfl

theorem operator_delete_run {s : State} {a : EarcutAllocFnType} {f : EarcutFreeFnType}
    (ha : s.g_alloc_fn = some a) (hf : s.g_free_fn = some f) {p : Ptr} (hp : p ≠ 0) :
    operator_delete p s = .ok () (s.log [Call.free p]) := by
  simp [operator_delete, ha, hf, hp, State.log]

theorem deallocate_run {α : Type} {s : State} {a : EarcutAllocFnType} {f : EarcutFreeFnType}
    (ha : s.g_alloc_fn = some a) (hf : s.g_free_fn = some f) (v : vector α) :
    v.deallocate s = .ok () (s.log (frees v.data)) := by
  unfold vector.deallocate frees
  by_cases h : v.data = 0
  · rw [if_pos h, if_pos h, log_nil]
    rfl
  · rw [if_neg h, if_neg h]
    exact operator_delete_run ha hf h

/-! ## Outstanding buffers -/

theorem outstanding_append (m : Multiset Ptr) (t u : List Call) :
    outstanding m (t ++ u) = (outstanding m t).bind (fun m' => outstanding m' u) := by
  induction t generalizing m with
  | nil => rfl
  | cons c t ih =>
    cases c with
    | alloc n p => exact ih _
    | free p =>
      by_cases h : p ∈ m
      · simp only [List.cons_append, outstanding, if_pos h]
        exact ih _
      · simp only [List.cons_append, outstanding, if_neg h]
        rfl

theorem Bal.nil (a : Multiset Ptr) : Bal a a [] := fun _ => rfl

theorem Bal.alloc (n : Nat) (p : Ptr) : Bal 0 {p} [Call.alloc n p] := by
  intro m
  simp only [outstanding, add_zero]
  rw [← Multiset.singleton_add, add_comm]

theorem Bal.free (p : Ptr) : Bal {p} 0 [Call.free p] := by
  intro m
  have h : p ∈ m + {p} := by simp
  simp only [outstanding, if_pos h, add_zero]
  rw [add_comm, Multiset.singleton_add, Multiset.erase_cons_head]

theorem Bal.append {a b c : Multiset Ptr} {t u : List Call} (h1 : Bal a b t) (h2 : Bal b c u) :
    Bal a c (t ++ u) := by
  intro m
  rw [outstanding_append, h1 m]
  exact h2 m

theorem Bal.frame {a b : Multiset Ptr} {t : List Call} (h : Bal a b t) (k : Multiset Ptr) :
    Bal (a + k) (b + k) t := by
  intro m
  have := h (m + k)
  rw [add_assoc, add_comm k a, add_assoc, add_comm k b] at this
  exact this

theorem Bal.cast {a b a' b' : Multiset Ptr} {t : List Call} (h : Bal a b t) (ha : a = a')
    (hb : b = b') : Bal a' b' t := by
  subst ha
  subst hb
  exact h

theorem Bal.release (d : Ptr) : Bal (stor d) 0 (frees d) := by
  unfold stor frees
  by_cases h : d = 0
  · rw [if_pos h, if_pos h]
    exact Bal.nil 0
  · rw [if_neg h, if_neg h]
    exact Bal.free d

theorem Bal.around {hold : Multiset Ptr} {t1 t2 : List Call} (h1 : Bal 0 hold t1)
    (h2 : Bal hold 0 t2) (n : Nat) (p : Ptr) : Bal 0 {p} (t1 ++ Call.alloc n p :: t2) := by
  have b2 := ((Bal.alloc n p).frame hold).cast (zero_add _) rfl
  have b3 := (h2.frame {p}).cast (add_comm _ _) (zero_add _)
  have b4 := (h1.append b2).append b3
  simpa only [List.append_assoc, List.singleton_append] using b4

theorem Bal.outstanding_zero {b : Multiset Ptr} {t : List Call} (h : Bal 0 b t) :
    outstanding 0 t = some b := by
  have := h 0
  rwa [zero_add, zero_add] at this

theorem stor_ne_zero {p : Ptr} (h : p ≠ 0) : stor p = {p} := by
  unfold stor
  rw [if_neg h]

theorem frees_all_free (d : Ptr) : ∀ c ∈ frees d, ∃ q, c = Call.free q := by
  intro c hc
  unfold frees at hc
  by_cases h : d = 0
  · rw [if_pos h] at hc
    cases hc
  · rw [if_neg h] at hc
    exact ⟨d, List.mem_singleton.mp hc⟩

/-! ## Vectors -/

theorem grown_size_ne_zero (P : Platform) (c : Nat) {esize : Nat} (he : esize ≠ 0) :
    max (P.grow c) (c + 1) * esize ≠ 0 := by
  have h : 0 < max (P.grow c) (c + 1) := lt_of_lt_of_le (Nat.succ_pos c) (le_max_right _ _)
  exact Nat.mul_ne_zero (Nat.pos_iff_ne_zero.mp h) he

theorem push_back_pure_run {α : Type} (P : Platform) {esize : Nat} (he : esize ≠ 0)
    (v : vector α) (x : α) {s : State} {a : EarcutAllocFnType} {f : EarcutFreeFnType}
    (ha : s.g_alloc_fn = some a) (hf : s.g_free_fn = some f) (hnn : ∀ t n, a t n ≠ 0) :
    ∃ v' t, v.push_back P esize (pure x) s = .ok v' (s.log t) ∧ v'.elems = v.elems ++ [x] ∧
      Bal (stor v.data) (stor v'.data) t := by
  unfold vector.push_back
  by_cases h : v.elems.length < v.cap
  · refine ⟨{ v with elems := v.elems ++ [x] }, [], ?_, rfl, Bal.nil _⟩
    rw [if_pos h, log_nil]
    rfl
  · have hc := grown_size_ne_zero P v.cap he
    refine ⟨{ elems := v.elems ++ [x], data := a s.calls (max (P.grow v.cap) (v.cap + 1) * esize),
              cap := max (P.grow v.cap) (v.cap + 1) },
            [Call.alloc (max (P.grow v.cap) (v.cap + 1) * esize)
              (a s.calls (max (P.grow v.cap) (v.cap + 1) * esize))] ++ frees v.data, ?_, rfl, ?_⟩
    · rw [if_neg h]
      rw [bind_ok (allocate_run ha hf hnn hc), bind_ok (pure_run x _),
        bind_ok (deallocate_run (s := s.log _) ha hf v), log_log]
      rfl
    · rw [stor_ne_zero (hnn _ _)]
      have h1 := (Bal.alloc (max (P.grow v.cap) (v.cap + 1) * esize)
        (a s.calls (max (P.grow v.cap) (v.cap + 1) * esize))).frame (stor v.data)
      have h2 := (Bal.release v.data).frame {a s.calls (max (P.grow v.cap) (v.cap + 1) * esize)}
      rw [zero_add] at h1 h2
      rw [add_comm] at h1
      exact h1.append h2

theorem fill_vertices_run (P : Platform) (points : Nat → vec2_t) {a : EarcutAllocFnType}
    {f : EarcutFreeFnType} (hnn : ∀ t n, a t n ≠ 0) (k : Nat) :
    ∀ (i : Nat) (v : vector Point) (s : State), s.g_alloc_fn = some a → s.g_free_fn = some f →
    ∃ v' t, fill_vertices P points i k v s = .ok v' (s.log t) ∧
      v'.elems = v.elems ++ (List.range' i k).map
        (fun j => (P.widen (points j).x, P.widen (points j).y)) ∧
      Bal (stor v.data) (stor v'.data) t := by
  induction k with
  | zero =>
    intro i v s _ _
    refine ⟨v, [], ?_, by simp, Bal.nil _⟩
    rw [log_nil]
    rfl
  | succ k ih =>
    intro i v s ha hf
    obtain ⟨v1, t1, hrun1, hel1, hbal1⟩ := push_back_pure_run P
      (show sizeof_Point ≠ 0 by decide) v (P.widen (points i).x, P.widen (points i).y) ha hf hnn
    obtain ⟨v2, t2, hrun2, hel2, hbal2⟩ := ih (i + 1) v1 (s.log t1) ha hf
    refine ⟨v2, t1 ++ t2, ?_, ?_, hbal1.append hbal2⟩
    · unfold fill_vertices
      rw [bind_ok hrun1, hrun2, log_log]
    · rw [hel2, hel1, List.range'_succ]
      simp

theorem copy_run (v : vector Point) (hv : v.elems ≠ []) {s : State} {a : EarcutAllocFnType}
    {f : EarcutFreeFnType} (ha : s.g_alloc_fn = some a) (hf : s.g_free_fn = some f)
    (hnn : ∀ t n, a t n ≠ 0) :
    v.copy s = .ok { elems := v.elems, data := a s.calls (v.elems.length * sizeof_Point),
                     cap := v.elems.length }
      (s.log [Call.alloc (v.elems.length * sizeof_Point)
        (a s.calls (v.elems.length * sizeof_Point))]) := by
  have hl : v.elems.length ≠ 0 := fun h => hv (List.length_eq_zero.mp h)
  have hsz : v.elems.length * sizeof_Point ≠ 0 := Nat.mul_ne_zero hl (by decide)
  unfold vector.copy
  rw [if_neg hl, bind_ok (allocate_run ha hf hnn hsz)]
  rfl

theorem push_back_ring_run (P : Platform) (v : vector Point) (hv : v.elems ≠ []) {s : State}
    {a : EarcutAllocFnType} {f : EarcutFreeFnType} (ha : s.g_alloc_fn = some a)
    (hf : s.g_free_fn = some f) (hnn : ∀ t n, a t n ≠ 0) :
    ∃ po pi c, po ≠ 0 ∧ pi ≠ 0 ∧
      (vector.empty : vector (vector Point)).push_back P sizeof_ring v.copy s =
        .ok { elems := [{ elems := v.elems, data := pi, cap := v.elems.length }], data := po,
              cap := c }
          (s.log [Call.alloc (c * sizeof_ring) po, Call.alloc (v.elems.length * sizeof_Point) pi]) := by
  have hc := grown_size_ne_zero P 0 (show sizeof_ring ≠ 0 by decide)
  refine ⟨a s.calls (max (P.grow 0) (0 + 1) * sizeof_ring),
    a (s.calls ++ [Call.alloc (max (P.grow 0) (0 + 1) * sizeof_ring)
      (a s.calls (max (P.grow 0) (0 + 1) * sizeof_ring))]) (v.elems.length * sizeof_Point),
    max (P.grow 0) (0 + 1), hnn _ _, hnn _ _, ?_⟩
  unfold vector.push_back
  rw [if_neg (by simp [vector.empty])]
  rw [show (vector.empty : vector (vector Point)).cap = 0 from rfl,
    bind_ok (allocate_run ha hf hnn hc),
    bind_ok (copy_run v hv (s := s.log _) ha hf hnn),
    bind_ok (deallocate_run (s := (s.log _).log _) ha hf _)]
  simp only [log_log, vector.empty, frees, pure_run, if_true, List.append_nil, List.nil_append,
    List.singleton_append, State.log, List.append_assoc, List.length_append, List.length_singleton]

/-! ## The engine's allocator traffic -/

theorem held_new (ptrs : List Ptr) (lv : List Nat) (p : Ptr) (hlv : ∀ k ∈ lv, k < ptrs.length) :
    held (ptrs ++ [p]) (lv ++ [ptrs.length]) = held ptrs lv + {p} := by
  unfold held
  rw [List.map_append, ← Multiset.coe_add]
  have h1 : lv.map (fun k => ((ptrs ++ [p]).get? k).getD 0) =
      lv.map (fun k => (ptrs.get? k).getD 0) := by
    apply List.map_congr_left
    intro k hk
    simp only [List.get?_eq_getElem?]
    rw [List.getElem?_append_left (hlv k hk)]
  rw [h1]
  simp

theorem held_erase (ptrs : List Ptr) (lv : List Nat) (k : Nat) (hk : k ∈ lv) :
    held ptrs lv = held ptrs (lv.erase k) + {(ptrs.get? k).getD 0} := by
  unfold held
  have hp := (List.perm_cons_erase hk).map (fun k => (ptrs.get? k).getD 0)
  rw [← Multiset.coe_eq_coe] at hp
  rw [hp, List.map_cons, ← Multiset.cons_coe, ← Multiset.singleton_add, add_comm]

theorem run_ops_run {a : EarcutAllocFnType} {f : EarcutFreeFnType} (hnn : ∀ t n, a t n ≠ 0)
    (ops : List EngineOp) :
    ∀ (ptrs : List Ptr) (lv lv' : List Nat) (s : State), s.g_alloc_fn = some a →
      s.g_free_fn = some f → (∀ p ∈ ptrs, p ≠ 0) → (∀ k ∈ lv, k < ptrs.length) →
      ops_live ops ptrs.length lv = some lv' →
      ∃ ptrs' t, run_ops ops ptrs s = .ok ptrs' (s.log t) ∧ (∀ p ∈ ptrs', p ≠ 0) ∧
        (∀ k ∈ lv', k < ptrs'.length) ∧ Bal (held ptrs lv) (held ptrs' lv') t := by
  induction ops with
  | nil =>
    intro ptrs lv lv' s _ _ hp hlv hops
    simp only [ops_live, Option.some.injEq] at hops
    subst hops
    refine ⟨ptrs, [], ?_, hp, hlv, Bal.nil _⟩
    rw [log_nil]
    rfl
  | cons op rest ih =>
    intro ptrs lv lv' s ha hf hp hlv hops
    cases op with
    | new n =>
      by_cases hn : n = 0
      · simp [ops_live, hn] at hops
      · simp only [ops_live, if_neg hn] at hops
        have hp1 : ∀ p ∈ ptrs ++ [a s.calls n], p ≠ 0 := by
          intro p hmem
          rcases List.mem_append.mp hmem with h | h
          · exact hp p h
          · rw [List.mem_singleton.mp h]
            exact hnn _ _
        have hlv1 : ∀ k ∈ lv ++ [ptrs.length], k < (ptrs ++ [a s.calls n]).length := by
          intro k hmem
          rw [List.length_append, List.length_singleton]
          rcases List.mem_append.mp hmem with h | h
          · exact Nat.lt_succ_of_lt (hlv k h)
          · rw [List.mem_singleton.mp h]
            exact Nat.lt_succ_self _
        have hops1 : ops_live rest (ptrs ++ [a s.calls n]).length (lv ++ [ptrs.length]) =
            some lv' := by
          rw [List.length_append, List.length_singleton]
          exact hops
        obtain ⟨ptrs', t, hrun, hp', hlv', hbal⟩ :=
          ih (ptrs ++ [a s.calls n]) (lv ++ [ptrs.length]) lv' (s.log [Call.alloc n (a s.calls n)])
            ha hf hp1 hlv1 hops1
        refine ⟨ptrs', [Call.alloc n (a s.calls n)] ++ t, ?_, hp', hlv', ?_⟩
        · unfold run_ops
          rw [bind_ok (allocate_run ha hf hnn hn), hrun, log_log]
        · have h1 := (Bal.alloc n (a s.calls n)).frame (held ptrs lv)
          rw [zero_add, add_comm, ← held_new ptrs lv _ hlv] at h1
          exact h1.append hbal
    | delete k =>
      by_cases hk : k ∈ lv
      · simp only [ops_live, if_pos hk] at hops
        have hklt := hlv k hk
        have hget : ptrs.get? k = some (ptrs.get ⟨k, hklt⟩) := List.get?_eq_get hklt
        have hne : ptrs.get ⟨k, hklt⟩ ≠ 0 := hp _ (List.get_mem _ _ _)
        have hlv1 : ∀ j ∈ lv.erase k, j < ptrs.length :=
          fun j hj => hlv j (List.mem_of_mem_erase hj)
        obtain ⟨ptrs', t, hrun, hp', hlv', hbal⟩ :=
          ih ptrs (lv.erase k) lv' (s.log [Call.free (ptrs.get ⟨k, hklt⟩)]) ha hf hp hlv1 hops
        refine ⟨ptrs', [Call.free (ptrs.get ⟨k, hklt⟩)] ++ t, ?_, hp', hlv', ?_⟩
        · unfold run_ops
          simp only [hget]
          rw [bind_ok (operator_delete_run ha hf hne), hrun, log_log]
        · have h1 := (Bal.free (ptrs.get ⟨k, hklt⟩)).frame (held ptrs (lv.erase k))
          rw [zero_add, add_comm] at h1
          have h2 := held_erase ptrs lv k hk
          rw [hget, Option.getD_some] at h2
          rw [← h2] at h1
          exact h1.append hbal
      · simp [ops_live, hk] at hops

theorem call_earcut_run (P : Platform) (polygon : vector (vector Point)) {s : State}
    {a : EarcutAllocFnType} {f : EarcutFreeFnType} (ha : s.g_alloc_fn = some a)
    (hf : s.g_free_fn = some f) (hnn : ∀ t n, a t n ≠ 0)
    (hb : (P.earcut (polygon.elems.map (fun r => r.elems))).balanced = true) :
    ∃ idx t s', call_earcut P polygon s = .ok idx s' ∧
      s' = { s with calls := s.calls ++ t,
                    handed := s.handed ++ [polygon.elems.map (fun r => r.elems)] } ∧
      idx.elems = (P.earcut (polygon.elems.map (fun r => r.elems))).indices ∧
      Bal 0 (stor idx.data) t := by
  unfold EarcutRun.balanced at hb
  rw [Bool.and_eq_true, decide_eq_true_eq, Bool.or_eq_true, decide_eq_true_eq] at hb
  obtain ⟨hlive, hbuf⟩ := hb
  obtain ⟨ptrs, t, hrun, hp, hlv, hbal⟩ := run_ops_run hnn
    (P.earcut (polygon.elems.map (fun r => r.elems))).ops [] [] _
    { s with handed := s.handed ++ [polygon.elems.map (fun r => r.elems)] } ha hf
    (by simp) (by simp) hlive
  unfold call_earcut
  simp only []
  rw [bind_ok hrun]
  cases hbk : (P.earcut (polygon.elems.map (fun r => r.elems))).buffer with
  | none =>
    rw [hbk] at hbuf hbal
    have hnil : (P.earcut (polygon.elems.map (fun r => r.elems))).indices = [] := by
      simpa using hbuf
    refine ⟨vector.empty, t, _, ?_, rfl, hnil.symm, ?_⟩
    · simp only [hnil, if_true]
      rfl
    · simpa [held, stor, vector.empty] using hbal
  | some k =>
    rw [hbk] at hlv hbal
    have hklt : k < ptrs.length := hlv k (by simp)
    have hget : ptrs.get? k = some (ptrs.get ⟨k, hklt⟩) := List.get?_eq_get hklt
    have hne : ptrs.get ⟨k, hklt⟩ ≠ 0 := hp _ (List.get_mem _ _ _)
    refine ⟨{ elems := (P.earcut (polygon.elems.map (fun r => r.elems))).indices,
              data := ptrs.get ⟨k, hklt⟩,
              cap := (P.earcut (polygon.elems.map (fun r => r.elems))).indices.length }, t, _,
            ?_, rfl, rfl, ?_⟩
    · simp only [hget]
      rfl
    · rw [stor_ne_zero hne]
      have h2 : held ptrs [k] = {ptrs.get ⟨k, hklt⟩} := by
        unfold held
        simp only [List.map_cons, List.map_nil, hget, Option.getD_some]
        rfl
      have h3 : held [] [] = 0 := rfl
      rw [Option.toList_some, h2, h3] at hbal
      exact hbal

theorem marshal_eq (P : Platform) (points : Nat → vec2_t) (n : Nat) :
    (List.range' 0 n).map (fun j => (P.widen (points j).x, P.widen (points j).y)) =
      marshal P points n := by
  unfold marshal
  rw [List.range_eq_range']

theorem marshal_ne_nil (P : Platform) (points : Nat → vec2_t) {n : Nat} (hn : 3 ≤ n) :
    marshal P points n ≠ [] := by
  intro h
  have := congrArg List.length h
  simp [marshal] at this
  omega

theorem get_num_indices_run (result : Ptr) (s : State) :
    get_num_indices result s = .ok (s.records result).num_indices s := rfl

theorem get_indices_run (result : Ptr) (s : State) :
    get_indices result s = .ok (s.records result).indices s := rfl

theorem fill_result_abort (result : Ptr) (idx : vector Nat) (hidx : idx.elems = []) (s : State) :
    fill_result result idx s =
      .abort { s with
        records := Function.update s.records result
          { s.records result with num_indices := 0 } } := by
  unfold fill_result
  rw [bind_ok (show set_num_indices result idx.elems.length s = .ok () _ from rfl)]
  rw [bind_ok (get_num_indices_run result _)]
  simp only [Function.update_same, hidx, List.length_nil, Nat.mul_zero]
  rw [bind_abort (operator_new_zero _)]

theorem fill_result_run (result : Ptr) (idx : vector Nat) (hidx : idx.elems ≠ []) {s : State}
    {a : EarcutAllocFnType} {f : EarcutFreeFnType} (ha : s.g_alloc_fn = some a)
    (hf : s.g_free_fn = some f) (hnn : ∀ t n, a t n ≠ 0) :
    fill_result result idx s =
      .ok () { s with
        calls := s.calls ++ [Call.alloc (sizeof_uint32_t * idx.elems.length)
          (a s.calls (sizeof_uint32_t * idx.elems.length))],
        records := Function.update s.records result
          { num_indices := idx.elems.length,
            indices := a s.calls (sizeof_uint32_t * idx.elems.length) },
        mem := Function.update s.mem (a s.calls (sizeof_uint32_t * idx.elems.length))
          idx.elems } := by
  have hl : idx.elems.length ≠ 0 := fun h => hidx (List.length_eq_zero.mp h)
  have hsz : sizeof_uint32_t * idx.elems.length ≠ 0 := Nat.mul_ne_zero (by decide) hl
  simp only [fill_result, bind_run, set_num_indices, get_num_indices, get_indices, set_indices,
    operator_new, ha, hf, if_neg hsz, Function.update_same, Function.update_idem, memcpy,
    if_neg hl, if_neg (hnn _ _), List.take_length]

theorem earcut_create_run (P : Platform) (n : Nat) (pts : Nat → vec2_t) (result : Ptr)
    (s : State) {a : EarcutAllocFnType} {f : EarcutFreeFnType} (ha : s.g_alloc_fn = some a)
    (hf : s.g_free_fn = some f) (hnn : ∀ t n, a t n ≠ 0) (hn : 3 ≤ n) (hr : result ≠ 0)
    (hb : (P.earcut [marshal P pts n]).balanced = true) :
    ∃ (t1 t2 : List Call) (hold : Multiset Ptr),
      Bal 0 hold t1 ∧ Bal hold 0 t2 ∧ (∀ c ∈ t2, ∃ q, c = Call.free q) ∧
      ((P.earcut [marshal P pts n]).indices = [] →
        earcut_create P n (some pts) result s =
          .abort { s with
            calls := s.calls ++ t1,
            handed := s.handed ++ [[marshal P pts n]],
            records := Function.update s.records result
              { s.records result with num_indices := 0 } }) ∧
      ((P.earcut [marshal P pts n]).indices ≠ [] →
        earcut_create P n (some pts) result s =
          .ok () { s with
            calls := s.calls ++ t1 ++
              Call.alloc (sizeof_uint32_t * (P.earcut [marshal P pts n]).indices.length)
                (a (s.calls ++ t1)
                  (sizeof_uint32_t * (P.earcut [marshal P pts n]).indices.length)) :: t2,
            handed := s.handed ++ [[marshal P pts n]],
            records := Function.update s.records result
              { num_indices := (P.earcut [marshal P pts n]).indices.length,
                indices := a (s.calls ++ t1)
                  (sizeof_uint32_t * (P.earcut [marshal P pts n]).indices.length) },
            mem := Function.update s.mem
              (a (s.calls ++ t1) (sizeof_uint32_t * (P.earcut [marshal P pts n]).indices.length))
              (P.earcut [marshal P pts n]).indices }) := by
  obtain ⟨v, tv, hfill, hvel, hvbal⟩ :=
    fill_vertices_run P pts (f := f) hnn n 0 vector.empty s ha hf
  rw [show (vector.empty : vector Point).elems = [] from rfl, List.nil_append, marshal_eq] at hvel
  rw [show stor (vector.empty : vector Point).data = 0 from rfl] at hvbal
  have hvne : v.elems ≠ [] := by
    rw [hvel]
    exact marshal_ne_nil P pts hn
  obtain ⟨po, pi, c, hpo, hpi, hpush⟩ := push_back_ring_run P v hvne (s := s.log tv) ha hf hnn
  rw [hvel] at hpush
  obtain ⟨idx, te, S, hcall, hS, hidx, hebal⟩ := call_earcut_run P
    { elems := [{ elems := marshal P pts n, data := pi, cap := (marshal P pts n).length }],
      data := po, cap := c } (s := (s.log tv).log
        [Call.alloc (c * sizeof_ring) po,
         Call.alloc ((marshal P pts n).length * sizeof_Point) pi]) ha hf hnn hb
  simp only [List.map_cons, List.map_nil] at hS hidx
  have haS : S.g_alloc_fn = some a := by
    rw [hS]
    exact ha
  have hfS : S.g_free_fn = some f := by
    rw [hS]
    exact hf
  refine ⟨tv ++ [Call.alloc (c * sizeof_ring) po,
         Call.alloc ((marshal P pts n).length * sizeof_Point) pi] ++ te,
    frees idx.data ++ frees v.data ++ frees pi ++ frees po,
    stor v.data + {po} + {pi} + stor idx.data, ?_, ?_, ?_, ?_, ?_⟩
  · have b2 := ((Bal.alloc (c * sizeof_ring) po).frame (stor v.data)).cast
      (zero_add _) (add_comm _ _)
    have b3 := ((Bal.alloc ((marshal P pts n).length * sizeof_Point) pi).frame
      (stor v.data + {po})).cast (zero_add _) (add_comm _ _)
    have b4 := (hebal.frame (stor v.data + {po} + {pi})).cast (zero_add _) (add_comm _ _)
    have b5 := ((hvbal.append b2).append b3).append b4
    simpa only [List.append_assoc, List.singleton_append] using b5
  · have b1 := ((Bal.release idx.data).frame (stor v.data + {po} + {pi})).cast
      (add_comm _ _) (zero_add _)
    have b2 := ((Bal.release v.data).frame ({po} + {pi})).cast
      (show stor v.data + ({po} + {pi}) = stor v.data + {po} + {pi} from (add_assoc _ _ _).symm)
      (zero_add _)
    have b3 := ((Bal.release pi).frame {po}).cast
      (show stor pi + {po} = {po} + {pi} by rw [stor_ne_zero hpi, add_comm]) (zero_add _)
    have b4 := (Bal.release po).cast (stor_ne_zero hpo) rfl
    exact ((b1.append b2).append b3).append b4
  · intro c hc
    simp only [List.mem_append] at hc
    rcases hc with ((hc | hc) | hc) | hc
    · exact frees_all_free _ c hc
    · exact frees_all_free _ c hc
    · exact frees_all_free _ c hc
    · exact frees_all_free _ c hc
  · intro hL
    unfold earcut_create
    rw [decide_eq_true hn, bind_ok (assert_true s)]
    simp only [Option.isSome_some]
    rw [bind_ok (assert_true s), decide_eq_true hr, bind_ok (assert_true s)]
    rw [bind_ok hfill, bind_ok hpush, bind_ok hcall,
      bind_abort (fill_result_abort result idx (hidx.trans hL) _)]
    subst hS
    simp only [State.log, List.append_assoc]
  · intro hL
    have hne : idx.elems ≠ [] := by
      rw [hidx]
      exact hL
    unfold earcut_create
    rw [decide_eq_true hn, bind_ok (assert_true s)]
    simp only [Option.isSome_some]
    rw [bind_ok (assert_true s), decide_eq_true hr, bind_ok (assert_true s)]
    rw [bind_ok hfill, bind_ok hpush, bind_ok hcall]
    rw [bind_ok (fill_result_run result idx hne haS hfS hnn)]
    subst hS
    by_cases h1 : idx.data = 0 <;> by_cases h2 : v.data = 0 <;>
      simp [bind_run, pure_run, vector.deallocate, destroy_rings, operator_delete, State.log, ha,
        hf, frees, hpi, hpo, h1, h2, hidx]

/-! ## Preconditions of `earcut_create` -/

theorem earcut_create_abort_of_precondition (P : Platform) (num_points : Nat)
    (points : Option (Nat → vec2_t)) (result : Ptr) (s : State)
    (h : num_points < 3 ∨ points = none ∨ result = 0) :
    earcut_create P num_points points result s = .abort s := by
  unfold earcut_create
  by_cases h1 : num_points ≥ 3
  · rw [decide_eq_true h1, bind_ok (assert_true s)]
    cases points with
    | none => rfl
    | some pts =>
      have h3 : result = 0 := by
        rcases h with h | h | h
        · omega
        · cases h
        · exact h
      subst h3
      rfl
  · rw [decide_eq_false h1, bind_abort (assert_false s)]

/-! ## `earcut_free` -/

theorem earcut_free_run {s : State} {a : EarcutAllocFnType} {f : EarcutFreeFnType}
    (ha : s.g_alloc_fn = some a) (hf : s.g_free_fn = some f) {result : Ptr} (hr : result ≠ 0)
    (hnum : (s.records result).num_indices ≠ 0) (hind : (s.records result).indices ≠ 0) :
    earcut_free result s = .ok () (s.log [Call.free (s.records result).indices]) := by
  unfold earcut_free
  rw [decide_eq_true hr, bind_ok (assert_true s), bind_ok (get_num_indices_run result s),
    decide_eq_true hnum, bind_ok (assert_true s), bind_ok (get_indices_run result s),
    decide_eq_true hind, bind_ok (assert_true s), bind_ok (get_indices_run result s)]
  exact operator_delete_run ha hf hind

theorem earcut_free_abort (s : State) (result : Ptr)
    (h : result = 0 ∨ (s.records result).num_indices = 0 ∨ (s.records result).indices = 0) :
    earcut_free result s = .abort s := by
  unfold earcut_free
  by_cases hr : result ≠ 0
  · rw [decide_eq_true hr, bind_ok (assert_true s), bind_ok (get_num_indices_run result s)]
    by_cases hnum : (s.records result).num_indices ≠ 0
    · rw [decide_eq_true hnum, bind_ok (assert_true s), bind_ok (get_indices_run result s)]
      have hind : ¬ (s.records result).indices ≠ 0 := by
        rcases h with h | h | h
        · exact absurd h hr
        · exact absurd h hnum
        · exact fun h' => h' h
      rw [decide_eq_false hind, bind_abort (assert_false s)]
    · rw [decide_eq_false hnum, bind_abort (assert_false s)]
  · rw [decide_eq_false hr, bind_abort (assert_false s)]

theorem earcut_free_twice_run {s : State} {a : EarcutAllocFnType} {f : EarcutFreeFnType}
    (ha : s.g_alloc_fn = some a) (hf : s.g_free_fn = some f) {result : Ptr} (hr : result ≠ 0)
    (hnum : (s.records result).num_indices ≠ 0) (hind : (s.records result).indices ≠ 0) :
    ∃ s1 s2, earcut_free result s = .ok () s1 ∧ earcut_free result s1 = .ok () s2 ∧
      s1.records = s.records ∧ s2.records = s.records ∧
      s2.calls = s.calls ++
        [Call.free (s.records result).indices, Call.free (s.records result).indices] := by
  refine ⟨_, _, earcut_free_run ha hf hr hnum hind,
    earcut_free_run (s := s.log _) ha hf hr hnum hind, rfl, rfl, ?_⟩
  simp [State.log]

/-! ## What is handed to the engine -/

theorem bind_eq_ok {α β : Type} {x : M α} {f : α → M β} {s s' : State} {b : β}
    (h : (x >>= f) s = .ok b s') : ∃ a s1, x s = .ok a s1 ∧ f a s1 = .ok b s' := by
  rw [bind_run] at h
  cases hx : x s with
  | ok a s1 =>
    rw [hx] at h
    exact ⟨a, s1, rfl, h⟩
  | abort s1 =>
    rw [hx] at h
    cases h
  | undefined =>
    rw [hx] at h
    cases h

theorem handed_is_bind {α β : Type} {x : M α} {f : α → M β} {s : State}
    {h : List (List (List Point))} (hx : (x s).handed_is h) (hf : ∀ a, Keeps (f a)) :
    ((x >>= f) s).handed_is h := by
  rw [bind_run]
  cases hxs : x s with
  | ok a s1 =>
    rw [hxs] at hx
    have := hf a s1
    rw [show s1.handed = h from hx] at this
    exact this
  | abort s1 =>
    rw [hxs] at hx
    exact hx
  | undefined => trivial

theorem Keeps.bind_kept {α β : Type} {x : M α} {f : α → M β} (hx : Keeps x) (hf : ∀ a, Keeps (f a)) :
    Keeps (x >>= f) := fun s => handed_is_bind (hx s) hf

theorem Keeps.pure_kept {α : Type} (a : α) : Keeps (pure a : M α) := fun _ => rfl

theorem Keeps.undefined_kept {α : Type} : Keeps (undefined : M α) := fun _ => trivial

theorem Keeps.assert_kept (c : Bool) : Keeps (assert c) := by
  intro s
  cases c <;> rfl

theorem Keeps.operator_new_kept (n : Nat) : Keeps (operator_new n) := by
  intro s
  unfold Earcut.operator_new
  cases s.g_alloc_fn with
  | none => rfl
  | some a =>
    cases s.g_free_fn with
    | none => rfl
    | some f =>
      by_cases hn : n = 0
      · simp only [hn, if_true]
        rfl
      · simp only [hn, if_false]
        rfl

theorem Keeps.operator_delete_kept (p : Ptr) : Keeps (operator_delete p) := by
  intro s
  unfold Earcut.operator_delete
  cases s.g_alloc_fn with
  | none => rfl
  | some a =>
    cases s.g_free_fn with
    | none => rfl
    | some f =>
      by_cases hp : p = 0
      · simp only [hp, if_true]
        rfl
      · simp only [hp, if_false]
        rfl

theorem Keeps.ite_kept {α : Type} (c : Prop) [Decidable c] {x y : M α} (hx : Keeps x) (hy : Keeps y) :
    Keeps (if c then x else y) := by
  by_cases h : c
  · rw [if_pos h]
    exact hx
  · rw [if_neg h]
    exact hy

theorem Keeps.allocate_kept (n : Nat) : Keeps (allocate n) :=
  (Keeps.operator_new_kept n).bind_kept (fun _ => Keeps.ite_kept _ Keeps.undefined_kept (Keeps.pure_kept _))

theorem Keeps.deallocate_kept {α : Type} (v : vector α) : Keeps v.deallocate :=
  Keeps.ite_kept _ (Keeps.pure_kept _) (Keeps.operator_delete_kept _)

theorem Keeps.push_back_kept {α : Type} (P : Platform) (esize : Nat) (v : vector α) {mk : M α}
    (hmk : Keeps mk) : Keeps (v.push_back P esize mk) :=
  Keeps.ite_kept _ (hmk.bind_kept (fun _ => Keeps.pure_kept _))
    ((Keeps.allocate_kept _).bind_kept (fun _ => hmk.bind_kept (fun _ =>
      (Keeps.deallocate_kept v).bind_kept (fun _ => Keeps.pure_kept _))))

theorem Keeps.copy_kept (v : vector Point) : Keeps v.copy :=
  Keeps.ite_kept _ (Keeps.pure_kept _) ((Keeps.allocate_kept _).bind_kept (fun _ => Keeps.pure_kept _))

theorem Keeps.fill_vertices_kept (P : Platform) (points : Nat → vec2_t) (k : Nat) :
    ∀ (i : Nat) (v : vector Point), Keeps (fill_vertices P points i k v) := by
  induction k with
  | zero => exact fun _ v => Keeps.pure_kept v
  | succ k ih =>
    exact fun i v => (Keeps.push_back_kept P _ v (Keeps.pure_kept _)).bind_kept (fun v' => ih (i + 1) v')

theorem Keeps.destroy_rings_kept (rings : List (vector Point)) : Keeps (destroy_rings rings) := by
  induction rings with
  | nil => exact Keeps.pure_kept ()
  | cons r rest ih => exact (Keeps.deallocate_kept r).bind_kept (fun _ => ih)

theorem Keeps.run_ops_kept (ops : List EngineOp) : ∀ ptrs : List Ptr, Keeps (run_ops ops ptrs) := by
  induction ops with
  | nil => exact fun ptrs => Keeps.pure_kept ptrs
  | cons op rest ih =>
    intro ptrs
    cases op with
    | new n => exact (Keeps.allocate_kept n).bind_kept (fun p => ih (ptrs ++ [p]))
    | delete k =>
      unfold Earcut.run_ops
      cases ptrs.get? k with
      | none => exact Keeps.undefined_kept
      | some p => exact (Keeps.operator_delete_kept p).bind_kept (fun _ => ih ptrs)

theorem Keeps.memcpy_kept (dst : Ptr) (src : List Nat) (n : Nat) : Keeps (memcpy dst src n) := by
  intro s
  unfold Earcut.memcpy
  by_cases hn : n = 0
  · rw [if_pos hn]
    rfl
  · rw [if_neg hn]
    by_cases hd : dst = 0
    · rw [if_pos hd]
      trivial
    · rw [if_neg hd]
      rfl

theorem Keeps.fill_result_kept (result : Ptr) (indices : vector Nat) :
    Keeps (fill_result result indices) :=
  Keeps.bind_kept (fun _ => rfl) (fun _ => Keeps.bind_kept (fun _ => rfl) (fun _ =>
    (Keeps.operator_new_kept _).bind_kept (fun _ => Keeps.bind_kept (fun _ => rfl) (fun _ =>
      Keeps.bind_kept (fun _ => rfl) (fun _ => Keeps.bind_kept (fun _ => rfl) (fun _ =>
        Keeps.memcpy_kept _ _ _))))))

theorem call_earcut_handed (P : Platform) (polygon : vector (vector Point)) (s : State) :
    (call_earcut P polygon s).handed_is (s.handed ++ [polygon.elems.map (fun r => r.elems)]) := by
  unfold call_earcut
  simp only []
  refine handed_is_bind (Keeps.run_ops_kept _ _ _) (fun ptrs => ?_)
  cases (P.earcut (polygon.elems.map (fun r => r.elems))).buffer with
  | none => exact Keeps.ite_kept _ (Keeps.pure_kept _) Keeps.undefined_kept
  | some k =>
    simp only []
    cases ptrs.get? k with
    | none => exact Keeps.undefined_kept
    | some p => exact Keeps.pure_kept _

theorem hands_of_handed_is {α : Type} {o : Outcome α} {h0 : List (List (List Point))}
    {arg : List (List Point)} (h : o.handed_is (h0 ++ [arg])) : o.hands h0 arg := by
  cases o with
  | ok a s' => exact h
  | abort s' => exact Or.inr h
  | undefined => trivial

theorem hands_bind {α β : Type} {x : M α} {f : α → M β} {s : State}
    {h0 : List (List (List Point))} {arg : List (List Point)} (hx : (x s).handed_is h0)
    (hf : ∀ a s1, x s = .ok a s1 → (f a s1).hands h0 arg) :
    ((x >>= f) s).hands h0 arg := by
  rw [bind_run]
  cases hxs : x s with
  | ok a s1 => exact hf a s1 hxs
  | abort s1 =>
    rw [hxs] at hx
    exact Or.inl hx
  | undefined => trivial

theorem push_back_ok_elems {α : Type} {P : Platform} {esize : Nat} {v v' : vector α} {mk : M α}
    {s s' : State} (h : v.push_back P esize mk s = .ok v' s') :
    ∃ x s0 s1, mk s0 = .ok x s1 ∧ v'.elems = v.elems ++ [x] := by
  unfold vector.push_back at h
  by_cases hc : v.elems.length < v.cap
  · rw [if_pos hc] at h
    obtain ⟨x, s1, hmk, h2⟩ := bind_eq_ok h
    cases h2
    exact ⟨x, s, _, hmk, rfl⟩
  · rw [if_neg hc] at h
    obtain ⟨p, s1, _, h2⟩ := bind_eq_ok h
    obtain ⟨x, s2, hmk, h3⟩ := bind_eq_ok h2
    obtain ⟨_, s3, _, h4⟩ := bind_eq_ok h3
    cases h4
    exact ⟨x, _, _, hmk, rfl⟩

theorem fill_vertices_ok_elems (P : Platform) (points : Nat → vec2_t) (k : Nat) :
    ∀ (i : Nat) (v v' : vector Point) (s s' : State),
      fill_vertices P points i k v s = .ok v' s' →
      v'.elems = v.elems ++ (List.range' i k).map
        (fun j => (P.widen (points j).x, P.widen (points j).y)) := by
  induction k with
  | zero =>
    intro i v v' s s' h
    cases h
    simp
  | succ k ih =>
    intro i v v' s s' h
    unfold fill_vertices at h
    obtain ⟨v1, s1, hpush, hrest⟩ := bind_eq_ok h
    obtain ⟨x, s0, s0', hmk, hel⟩ := push_back_ok_elems hpush
    cases hmk
    rw [ih (i + 1) v1 v' s1 s' hrest, hel, List.range'_succ]
    simp

theorem copy_ok_elems {v v' : vector Point} {s s' : State} (h : v.copy s = .ok v' s') :
    v'.elems = v.elems := by
  unfold vector.copy at h
  by_cases hl : v.elems.length = 0
  · rw [if_pos hl] at h
    cases h
    exact (List.length_eq_zero.mp hl).symm
  · rw [if_neg hl] at h
    obtain ⟨p, s1, _, h2⟩ := bind_eq_ok h
    cases h2
    rfl

theorem earcut_create_hands (P : Platform) (n : Nat) (pts : Nat → vec2_t) (result : Ptr)
    (s : State) :
    (earcut_create P n (some pts) result s).hands s.handed [marshal P pts n] := by
  unfold earcut_create
  refine hands_bind (Keeps.assert_kept _ s) (fun _ s1 h1 => ?_)
  have e1 : s1.handed = s.handed := by
    have := Keeps.assert_kept (decide (n ≥ 3)) s
    rw [h1] at this
    exact this
  rw [← e1]
  refine hands_bind (Keeps.assert_kept _ s1) (fun _ s2 h2 => ?_)
  have e2 : s2.handed = s1.handed := by
    have := Keeps.assert_kept (some pts).isSome s1
    rw [h2] at this
    exact this
  rw [← e2]
  refine hands_bind (Keeps.assert_kept _ s2) (fun _ s3 h3 => ?_)
  have e3 : s3.handed = s2.handed := by
    have := Keeps.assert_kept (decide (result ≠ 0)) s2
    rw [h3] at this
    exact this
  rw [← e3]
  simp only []
  refine hands_bind (Keeps.fill_vertices_kept P pts n 0 _ s3) (fun v s4 h4 => ?_)
  have e4 : s4.handed = s3.handed := by
    have := Keeps.fill_vertices_kept P pts n 0 vector.empty s3
    rw [h4] at this
    exact this
  have hv : v.elems = marshal P pts n := by
    rw [fill_vertices_ok_elems P pts n 0 _ v s3 s4 h4, ← marshal_eq]
    rfl
  rw [← e4]
  refine hands_bind (Keeps.push_back_kept P _ _ (Keeps.copy_kept v) s4) (fun pg s5 h5 => ?_)
  have e5 : s5.handed = s4.handed := by
    have := Keeps.push_back_kept P sizeof_ring (vector.empty : vector (vector Point)) (Keeps.copy_kept v) s4
    rw [h5] at this
    exact this
  have hpg : pg.elems.map (fun r => r.elems) = [marshal P pts n] := by
    obtain ⟨x, s0, s0', hmk, hel⟩ := push_back_ok_elems h5
    rw [hel, ← hv, ← copy_ok_elems hmk]
    rfl
  rw [← e5, ← hpg]
  refine hands_of_handed_is (handed_is_bind (call_earcut_handed P pg s5) (fun idx => ?_))
  exact (Keeps.fill_result_kept result idx).bind_kept (fun _ => (Keeps.deallocate_kept idx).bind_kept (fun _ =>
    (Keeps.deallocate_kept v).bind_kept (fun _ => (Keeps.destroy_rings_kept _).bind_kept (fun _ =>
      Keeps.deallocate_kept pg))))

/-! ## What a returning call has done -/

theorem Logs.bind_logged {α β : Type} {x : M α} {f : α → M β} (hx : Logs x) (hf : ∀ a, Logs (f a)) :
    Logs (x >>= f) := by
  intro s b s' h
  obtain ⟨a, s1, h1, h2⟩ := bind_eq_ok h
  obtain ⟨t1, rfl⟩ := hx s a s1 h1
  obtain ⟨t2, rfl⟩ := hf a _ b s' h2
  exact ⟨t1 ++ t2, log_log s t1 t2⟩

theorem Logs.pure_logged {α : Type} (a : α) : Logs (pure a : M α) := by
  intro s b s' h
  cases h
  exact ⟨[], (log_nil s).symm⟩

theorem Logs.undefined_logged {α : Type} : Logs (undefined : M α) := by
  intro s b s' h
  cases h

theorem Logs.ite_logged {α : Type} (c : Prop) [Decidable c] {x y : M α} (hx : Logs x) (hy : Logs y) :
    Logs (if c then x else y) := by
  by_cases h : c
  · rw [if_pos h]
    exact hx
  · rw [if_neg h]
    exact hy

theorem assert_ok {c : Bool} {s s' : State} {u : Unit} (h : assert c s = .ok u s') :
    c = true ∧ s = s' := by
  cases c with
  | false => cases h
  | true =>
    cases h
    exact ⟨rfl, rfl⟩

theorem operator_new_ok {n : Nat} {s s' : State} {p : Ptr} (h : operator_new n s = .ok p s') :
    ∃ a, s.g_alloc_fn = some a ∧ n ≠ 0 ∧ p = a s.calls n ∧
      s' = s.log [Call.alloc n (a s.calls n)] := by
  unfold operator_new at h
  cases hga : s.g_alloc_fn with
  | none =>
    rw [hga] at h
    cases h
  | some a =>
    rw [hga] at h
    cases hgf : s.g_free_fn with
    | none =>
      rw [hgf] at h
      cases h
    | some f =>
      rw [hgf] at h
      by_cases hn : n = 0
      · simp only [hn, if_true] at h
        cases h
      · simp only [hn, if_false] at h
        cases h
        exact ⟨a, rfl, hn, rfl, by simp only [State.log, hga, hgf]⟩

theorem operator_delete_ok {p : Ptr} {s s' : State} (h : operator_delete p s = .ok () s') :
    s' = s.log [Call.free p] := by
  unfold operator_delete at h
  cases hga : s.g_alloc_fn with
  | none =>
    rw [hga] at h
    cases h
  | some a =>
    rw [hga] at h
    cases hgf : s.g_free_fn with
    | none =>
      rw [hgf] at h
      cases h
    | some f =>
      rw [hgf] at h
      by_cases hp : p = 0
      · simp only [hp, if_true] at h
        cases h
      · simp only [hp, if_false] at h
        cases h
        simp only [State.log, hga, hgf]

theorem Logs.operator_new_logged (n : Nat) : Logs (operator_new n) := by
  intro s p s' h
  obtain ⟨a, _, _, _, hs'⟩ := operator_new_ok h
  exact ⟨_, hs'⟩

theorem Releases.operator_delete_released (p : Ptr) : Releases (operator_delete p) := by
  intro s u s' h
  exact ⟨_, operator_delete_ok h, fun c hc => ⟨p, List.mem_singleton.mp hc⟩⟩

theorem Releases.to_logs {α : Type} {x : M α} (hx : Releases x) : Logs x := by
  intro s a s' h
  obtain ⟨t, ht, _⟩ := hx s a s' h
  exact ⟨t, ht⟩

theorem Releases.bind_released {α β : Type} {x : M α} {f : α → M β} (hx : Releases x)
    (hf : ∀ a, Releases (f a)) : Releases (x >>= f) := by
  intro s b s' h
  obtain ⟨a, s1, h1, h2⟩ := bind_eq_ok h
  obtain ⟨t1, rfl, hfree1⟩ := hx s a s1 h1
  obtain ⟨t2, rfl, hfree2⟩ := hf a _ b s' h2
  refine ⟨t1 ++ t2, log_log s t1 t2, fun c hc => ?_⟩
  rcases List.mem_append.mp hc with hc | hc
  · exact hfree1 c hc
  · exact hfree2 c hc

theorem Releases.pure_released {α : Type} (a : α) : Releases (pure a : M α) := by
  intro s b s' h
  cases h
  exact ⟨[], (log_nil s).symm, fun c hc => by cases hc⟩

theorem Releases.deallocate_released {α : Type} (v : vector α) : Releases v.deallocate := by
  unfold vector.deallocate
  by_cases h : v.data = 0
  · rw [if_pos h]
    exact Releases.pure_released ()
  · rw [if_neg h]
    exact Releases.operator_delete_released _

theorem Releases.destroy_rings_released (rings : List (vector Point)) :
    Releases (destroy_rings rings) := by
  induction rings with
  | nil => exact Releases.pure_released ()
  | cons r rest ih => exact (Releases.deallocate_released r).bind_released (fun _ => ih)

theorem Logs.allocate_logged (n : Nat) : Logs (allocate n) :=
  (Logs.operator_new_logged n).bind_logged (fun _ => Logs.ite_logged _ Logs.undefined_logged (Logs.pure_logged _))

theorem Logs.push_back_logged {α : Type} (P : Platform) (esize : Nat) (v : vector α) {mk : M α}
    (hmk : Logs mk) : Logs (v.push_back P esize mk) :=
  Logs.ite_logged _ (hmk.bind_logged (fun _ => Logs.pure_logged _))
    ((Logs.allocate_logged _).bind_logged (fun _ => hmk.bind_logged (fun _ =>
      (Releases.deallocate_released v).to_logs.bind_logged (fun _ => Logs.pure_logged _))))

theorem Logs.copy_logged (v : vector Point) : Logs v.copy :=
  Logs.ite_logged _ (Logs.pure_logged _) ((Logs.allocate_logged _).bind_logged (fun _ => Logs.pure_logged _))

theorem Logs.fill_vertices_logged (P : Platform) (points : Nat → vec2_t) (k : Nat) :
    ∀ (i : Nat) (v : vector Point), Logs (fill_vertices P points i k v) := by
  induction k with
  | zero => exact fun _ v => Logs.pure_logged v
  | succ k ih =>
    exact fun i v => (Logs.push_back_logged P _ v (Logs.pure_logged _)).bind_logged (fun v' => ih (i + 1) v')

theorem Logs.run_ops_logged (ops : List EngineOp) : ∀ ptrs : List Ptr, Logs (run_ops ops ptrs) := by
  induction ops with
  | nil => exact fun ptrs => Logs.pure_logged ptrs
  | cons op rest ih =>
    intro ptrs
    cases op with
    | new n => exact (Logs.allocate_logged n).bind_logged (fun p => ih (ptrs ++ [p]))
    | delete k =>
      unfold Earcut.run_ops
      cases ptrs.get? k with
      | none => exact Logs.undefined_logged
      | some p => exact (Releases.operator_delete_released p).to_logs.bind_logged (fun _ => ih ptrs)

theorem call_earcut_ok {P : Platform} {polygon : vector (vector Point)} {s s' : State}
    {idx : vector Nat} (h : call_earcut P polygon s = .ok idx s') :
    ∃ t, s' = { s with calls := s.calls ++ t,
                       handed := s.handed ++ [polygon.elems.map (fun r => r.elems)] } ∧
      idx.elems = (P.earcut (polygon.elems.map (fun r => r.elems))).indices := by
  unfold call_earcut at h
  simp only [] at h
  obtain ⟨ptrs, s1, h1, h2⟩ := bind_eq_ok h
  obtain ⟨t, rfl⟩ := Logs.run_ops_logged _ _ _ _ _ h1
  refine ⟨t, ?_⟩
  cases hb : (P.earcut (polygon.elems.map (fun r => r.elems))).buffer with
  | none =>
    rw [hb] at h2
    simp only [] at h2
    by_cases hnil : (P.earcut (polygon.elems.map (fun r => r.elems))).indices = []
    · rw [if_pos hnil] at h2
      cases h2
      exact ⟨rfl, hnil.symm⟩
    · rw [if_neg hnil] at h2
      cases h2
  | some k =>
    rw [hb] at h2
    simp only [] at h2
    cases hg : ptrs.get? k with
    | none =>
      rw [hg] at h2
      cases h2
    | some p =>
      rw [hg] at h2
      cases h2
      exact ⟨rfl, rfl⟩

theorem fill_result_ok {result : Ptr} {idx : vector Nat} {s s' : State}
    (h : fill_result result idx s = .ok () s') :
    ∃ a, s.g_alloc_fn = some a ∧ idx.elems ≠ [] ∧
      s' = { s with
        calls := s.calls ++ [Call.alloc (sizeof_uint32_t * idx.elems.length)
          (a s.calls (sizeof_uint32_t * idx.elems.length))],
        records := Function.update s.records result
          { num_indices := idx.elems.length,
            indices := a s.calls (sizeof_uint32_t * idx.elems.length) },
        mem := Function.update s.mem (a s.calls (sizeof_uint32_t * idx.elems.length))
          idx.elems } := by
  by_cases hnil : idx.elems = []
  · rw [fill_result_abort result idx hnil s] at h
    cases h
  · have hl : idx.elems.length ≠ 0 := fun h => hnil (List.length_eq_zero.mp h)
    unfold fill_result at h
    obtain ⟨_, s1, h1, h2⟩ := bind_eq_ok h
    cases h1
    obtain ⟨n, s2, h3, h4⟩ := bind_eq_ok h2
    cases h3
    obtain ⟨p, s3, h5, h6⟩ := bind_eq_ok h4
    obtain ⟨a, hga, hn, hp, hs3⟩ := operator_new_ok h5
    refine ⟨a, hga, hnil, ?_⟩
    subst hs3
    subst hp
    obtain ⟨_, s4, h7, h8⟩ := bind_eq_ok h6
    cases h7
    obtain ⟨dst, s5, h9, h10⟩ := bind_eq_ok h8
    cases h9
    obtain ⟨m, s6, h11, h12⟩ := bind_eq_ok h10
    cases h11
    simp only [State.log, Function.update_same, Function.update_idem, memcpy, if_neg hl] at h12
    by_cases hp0 : a s.calls (sizeof_uint32_t * idx.elems.length) = 0
    · rw [if_pos hp0] at h12
      cases h12
    · rw [if_neg hp0] at h12
      cases h12
      simp only [List.take_length]

theorem earcut_create_ok {P : Platform} {n : Nat} {pts : Nat → vec2_t} {result : Ptr}
    {s s' : State} (h : earcut_create P n (some pts) result s = .ok () s') :
    ∃ a t1 t2, s.g_alloc_fn = some a ∧ (P.earcut [marshal P pts n]).indices ≠ [] ∧
      (∀ c ∈ t2, ∃ q, c = Call.free q) ∧
      s' = { s with
        calls := s.calls ++ t1 ++
          Call.alloc (sizeof_uint32_t * (P.earcut [marshal P pts n]).indices.length)
            (a (s.calls ++ t1)
              (sizeof_uint32_t * (P.earcut [marshal P pts n]).indices.length)) :: t2,
        handed := s.handed ++ [[marshal P pts n]],
        records := Function.update s.records result
          { num_indices := (P.earcut [marshal P pts n]).indices.length,
            indices := a (s.calls ++ t1)
              (sizeof_uint32_t * (P.earcut [marshal P pts n]).indices.length) },
        mem := Function.update s.mem
          (a (s.calls ++ t1) (sizeof_uint32_t * (P.earcut [marshal P pts n]).indices.length))
          (P.earcut [marshal P pts n]).indices } := by
  unfold earcut_create at h
  obtain ⟨_, s1, h1, k1⟩ := bind_eq_ok h
  try dsimp only at k1
  obtain ⟨_, rfl⟩ := assert_ok h1
  obtain ⟨_, s2, h2, k2⟩ := bind_eq_ok k1
  try dsimp only at k2
  obtain ⟨_, rfl⟩ := assert_ok h2
  obtain ⟨_, s3, h3, k3⟩ := bind_eq_ok k2
  try dsimp only at k3
  obtain ⟨_, rfl⟩ := assert_ok h3
  obtain ⟨v, s4, h4, k4⟩ := bind_eq_ok k3
  try dsimp only at k4
  obtain ⟨tv, rfl⟩ := Logs.fill_vertices_logged P pts n 0 _ _ _ _ h4
  have hv : v.elems = marshal P pts n := by
    rw [fill_vertices_ok_elems P pts n 0 _ v _ _ h4, ← marshal_eq]
    rfl
  obtain ⟨pg, s5, h5, k5⟩ := bind_eq_ok k4
  try dsimp only at k5
  obtain ⟨tp, rfl⟩ := Logs.push_back_logged P sizeof_ring _ (Logs.copy_logged v) _ _ _ h5
  have hpg : pg.elems.map (fun r => r.elems) = [marshal P pts n] := by
    obtain ⟨x, s0, s0', hmk, hel⟩ := push_back_ok_elems h5
    rw [hel, ← hv, ← copy_ok_elems hmk]
    rfl
  obtain ⟨idx, s6, h6, k6⟩ := bind_eq_ok k5
  try dsimp only at k6
  obtain ⟨te, hs6, hidx⟩ := call_earcut_ok h6
  rw [hpg] at hs6 hidx
  obtain ⟨_, s7, h7, k7⟩ := bind_eq_ok k6
  try dsimp only at k7
  obtain ⟨a, hga, hne, hs7⟩ := fill_result_ok h7
  have hrel : Releases (do
      idx.deallocate
      v.deallocate
      destroy_rings pg.elems
      pg.deallocate : M Unit) :=
    (Releases.deallocate_released idx).bind_released (fun _ => (Releases.deallocate_released v).bind_released (fun _ =>
      (Releases.destroy_rings_released _).bind_released (fun _ => Releases.deallocate_released pg)))
  obtain ⟨t2, hs', hfree⟩ := hrel _ _ _ k7
  have hga' : s.g_alloc_fn = some a := by
    rw [hs6] at hga
    exact hga
  rw [hidx] at hne hs7
  refine ⟨a, tv ++ tp ++ te, t2, hga', hne, hfree, ?_⟩
  rw [hs', hs7, hs6]
  simp only [State.log, List.append_assoc, List.singleton_append]

/-! ## The claims -/

/-- C1: whenever `earcut_create` returns, with `L` the index list the engine returned for the
marshaled polygon: `result.num_indices` is the length of `L`, `result.indices` is the buffer the
configured allocate function returned for one request of `4 * length L` bytes (the last request
of the call, only releases follow it), and the buffer holds `L` itself, element by element, so
its length is 3 times the engine's triangle count. With `num_points ≥ 3`, non-null arguments, a
configured allocator and a non-empty `L` the call does return. -/
theorem earcut_create_result_is_engine_indices (P : Platform) (n : Nat) (pts : Nat → vec2_t)
    (result : Ptr) (s : State) :
    (∀ s', earcut_create P n (some pts) result s = .ok () s' →
      ∃ a, s.g_alloc_fn = some a ∧
        (s'.records result).num_indices = (P.earcut [marshal P pts n]).indices.length ∧
        (∃ t1 t2, s'.calls = s.calls ++ t1 ++
            Call.alloc (4 * (P.earcut [marshal P pts n]).indices.length)
              (s'.records result).indices :: t2 ∧
          (s'.records result).indices =
            a (s.calls ++ t1) (4 * (P.earcut [marshal P pts n]).indices.length) ∧
          ∀ c ∈ t2, ∃ q, c = Call.free q) ∧
        s'.mem (s'.records result).indices = (P.earcut [marshal P pts n]).indices ∧
        (∀ i, i < (P.earcut [marshal P pts n]).indices.length →
          (s'.mem (s'.records result).indices).get? i =
            (P.earcut [marshal P pts n]).indices.get? i) ∧
        (∀ T, (P.earcut [marshal P pts n]).indices.length = 3 * T →
          (s'.mem (s'.records result).indices).length = 3 * T)) ∧
    (∀ (a : EarcutAllocFnType) (f : EarcutFreeFnType), s.g_alloc_fn = some a →
      s.g_free_fn = some f → (∀ t k, a t k ≠ 0) → 3 ≤ n → result ≠ 0 →
      (P.earcut [marshal P pts n]).balanced = true →
      (P.earcut [marshal P pts n]).indices ≠ [] →
      ∃ s', earcut_create P n (some pts) result s = .ok () s') := by
  refine ⟨?_, ?_⟩
  · intro s' hs'
    obtain ⟨a, t1, t2, hga, _, hfree, hs⟩ := earcut_create_ok hs'
    subst hs
    have hsz : sizeof_uint32_t = 4 := rfl
    refine ⟨a, hga, ?_, ⟨t1, t2, ?_, ?_, hfree⟩, ?_, ?_, ?_⟩
    · simp only [Function.update_same]
    · simp only [Function.update_same, hsz]
    · simp only [Function.update_same, hsz]
    · show Function.update s.mem _ _ (Function.update s.records result _ result).indices = _
      rw [Function.update_same, Function.update_same]
    · intro i _
      show (Function.update s.mem _ _ (Function.update s.records result _ result).indices).get? i
        = _
      rw [Function.update_same, Function.update_same]
    · intro T hT
      show (Function.update s.mem _ _ (Function.update s.records result _ result).indices).length
        = _
      rw [Function.update_same, Function.update_same]
      exact hT
  · intro a f ha hf hnn hn hr hb hL
    obtain ⟨t1, t2, hold, _, _, _, _, hok⟩ :=
      earcut_create_run P n pts result s ha hf hnn hn hr hb
    exact ⟨_, hok hL⟩

/-- C1 at a concrete input: the triangle under the bump allocator. -/
theorem earcut_create_result_is_engine_indices_witness :
    ∃ s', earcut_create example_platform 3 (some triangle_points) 1 example_state = .ok () s' ∧
      (s'.records 1).num_indices = 3 ∧ s'.mem (s'.records 1).indices = [0, 1, 2] := by
  have h := earcut_create_result_is_engine_indices example_platform 3 triangle_points 1
    example_state
  have hL : (example_platform.earcut [marshal example_platform triangle_points 3]).indices =
      [0, 1, 2] := by decide
  obtain ⟨s', hs'⟩ := h.2 bump_alloc noop_free rfl rfl (fun _ _ => Nat.succ_ne_zero _)
    (by decide) (by decide) (by decide) (by rw [hL]; decide)
  obtain ⟨_, _, h1, _, h3, _⟩ := h.1 s' hs'
  rw [hL] at h1 h3
  exact ⟨s', hs', h1, h3⟩

/-- The extent of the defect behind C2: whenever the engine returns an empty index list,
`earcut_create` never returns, in any state. The buffer request of line 69 is for `4 * 0 = 0`
bytes, and the replaced `operator new` fails its own size assertion (line 21) for that request
in every state. With `num_points ≥ 3`, non-null arguments and a configured allocator the call
aborts after line 68 has stored `num_indices = 0`, with `result.indices` and every index buffer
untouched. -/
theorem earcut_create_empty_index_list_aborts (P : Platform) (n : Nat) (pts : Nat → vec2_t)
    (result : Ptr) (hL : (P.earcut [marshal P pts n]).indices = []) :
    (∀ s, ¬ ∃ s', earcut_create P n (some pts) result s = .ok () s') ∧
    (∀ s, operator_new (sizeof_uint32_t * 0) s = .abort s) ∧
    (∀ (s : State) (a : EarcutAllocFnType) (f : EarcutFreeFnType), s.g_alloc_fn = some a →
      s.g_free_fn = some f → (∀ t k, a t k ≠ 0) → 3 ≤ n → result ≠ 0 →
      (P.earcut [marshal P pts n]).balanced = true →
      ∃ s', earcut_create P n (some pts) result s = .abort s' ∧
        (s'.records result).num_indices = 0 ∧
        (s'.records result).indices = (s.records result).indices ∧
        s'.mem = s.mem) := by
  refine ⟨?_, fun s => operator_new_zero s, ?_⟩
  · rintro s ⟨s', hs'⟩
    obtain ⟨_, _, _, _, hne, _⟩ := earcut_create_ok hs'
    exact hne hL
  · intro s a f ha hf hnn hn hr hb
    obtain ⟨t1, t2, hold, _, _, _, habort, _⟩ :=
      earcut_create_run P n pts result s ha hf hnn hn hr hb
    refine ⟨_, habort hL, ?_, ?_, rfl⟩
    · show (Function.update s.records result _ result).num_indices = 0
      rw [Function.update_same]
    · show (Function.update s.records result _ result).indices = _
      rw [Function.update_same]

/-- C2, the code at the failing input: three coincident points with a non-null array, a
non-null record and a configured allocator pass the three assertions of `earcut_create`; the
engine returns no index; the call then stores `num_indices = 0` and aborts instead of returning
with zero triangles. -/
theorem degenerate_input_aborts :
    (3 : Nat) ≥ 3 ∧ (some coincident_points).isSome = true ∧ (1 : Ptr) ≠ 0 ∧
    (example_platform.earcut [marshal example_platform coincident_points 3]).indices = [] ∧
    example_state.g_alloc_fn.isSome = true ∧ example_state.g_free_fn.isSome = true ∧
    (∃ s', earcut_create example_platform 3 (some coincident_points) 1 example_state =
        .abort s' ∧ (s'.records 1).num_indices = 0) ∧
    ¬ ∃ s', earcut_create example_platform 3 (some coincident_points) 1 example_state =
        .ok () s' := by
  have hL : (example_platform.earcut [marshal example_platform coincident_points 3]).indices =
      [] := by decide
  obtain ⟨t1, t2, hold, _, _, _, habort, _⟩ :=
    earcut_create_run example_platform 3 coincident_points 1 example_state
      (a := bump_alloc) (f := noop_free) rfl rfl (fun _ _ => Nat.succ_ne_zero _)
      (by decide) (by decide) (by decide)
  refine ⟨by decide, rfl, by decide, hL, rfl, rfl, ⟨_, habort hL, ?_⟩, ?_⟩
  · exact congrArg earcut_result_t.num_indices (Function.update_same 1 _ example_state.records)
  · rintro ⟨s', hs'⟩
    rw [habort hL] at hs'
    cases hs'

/-- The abort on an empty index list, at the three coincident points. -/
theorem earcut_create_empty_index_list_aborts_witness :
    ∃ s', earcut_create example_platform 3 (some coincident_points) 1 example_state =
      .abort s' ∧ (s'.records 1).num_indices = 0 := by
  obtain ⟨s', h1, h2, _⟩ := (earcut_create_empty_index_list_aborts example_platform 3
    coincident_points 1 (by decide)).2.2 example_state bump_alloc noop_free rfl rfl
    (fun _ _ => Nat.succ_ne_zero _) (by decide) (by decide) (by decide)
  exact ⟨s', h1, h2⟩

/-- C4: a call with `num_points < 3`, a null `points` or a null `result` aborts in the state it
was made in: nothing was requested from the allocator and no record was written. -/
theorem earcut_create_precondition_abort (P : Platform) (num_points : Nat)
    (points : Option (Nat → vec2_t)) (result : Ptr) (s : State)
    (h : num_points < 3 ∨ points = none ∨ result = 0) :
    earcut_create P num_points points result s = .abort s :=
  earcut_create_abort_of_precondition P num_points points result s h

/-- C4 at concrete inputs: two points; a null array; a null record. -/
theorem earcut_create_precondition_abort_witness :
    earcut_create example_platform 2 (some triangle_points) 1 example_state =
        .abort example_state ∧
      earcut_create example_platform 3 none 1 example_state = .abort example_state ∧
      earcut_create example_platform 3 (some triangle_points) 0 example_state =
        .abort example_state :=
  ⟨earcut_create_precondition_abort example_platform 2 (some triangle_points) 1 example_state
      (Or.inl (by decide)),
    earcut_create_precondition_abort example_platform 3 none 1 example_state
      (Or.inr (Or.inl rfl)),
    earcut_create_precondition_abort example_platform 3 (some triangle_points) 0 example_state
      (Or.inr (Or.inr rfl))⟩

/-- C5: with `num_points ≥ 3` and non-null arguments, a call made while the allocate function
or the free function is null aborts in the state it was made in, so at its first allocation and
without any call of either function; this holds in the initial state, where
`earcut_set_allocator` was never called, and after `earcut_set_allocator` with a null for either
function, also when the allocate function is not null. -/
theorem earcut_create_unconfigured_abort (P : Platform) (n : Nat) (pts : Nat → vec2_t)
    (result : Ptr) (hn : 3 ≤ n) (hr : result ≠ 0) :
    (∀ s : State, s.g_alloc_fn = none ∨ s.g_free_fn = none →
      earcut_create P n (some pts) result s = .abort s) ∧
    earcut_create P n (some pts) result State.initial = .abort State.initial ∧
    (∀ (s : State) (alloc_fn : Option EarcutAllocFnType) (free_fn : Option EarcutFreeFnType),
      alloc_fn = none ∨ free_fn = none →
      earcut_create P n (some pts) result (earcut_set_allocator alloc_fn free_fn s) =
        .abort (earcut_set_allocator alloc_fn free_fn s)) := by
  have key : ∀ s : State, s.g_alloc_fn = none ∨ s.g_free_fn = none →
      earcut_create P n (some pts) result s = .abort s := by
    intro s h
    obtain ⟨k, rfl⟩ : ∃ k, n = k + 1 := ⟨n - 1, by omega⟩
    unfold earcut_create
    rw [decide_eq_true hn, bind_ok (assert_true s)]
    simp only [Option.isSome_some]
    rw [bind_ok (assert_true s), decide_eq_true hr, bind_ok (assert_true s)]
    have hfill : fill_vertices P pts 0 (k + 1) vector.empty s = .abort s := by
      unfold fill_vertices vector.push_back
      rw [if_neg (by simp [vector.empty])]
      unfold allocate
      rw [bind_abort (bind_abort (bind_abort (operator_new_unconfigured h _) _) _)]
    rw [bind_abort hfill]
  exact ⟨key, key _ (Or.inl rfl), fun s alloc_fn free_fn h => key _ h⟩

/-- C5 at a concrete input: a configured allocate function with a null free function. -/
theorem earcut_create_unconfigured_abort_witness :
    earcut_create example_platform 3 (some triangle_points) 1
        (earcut_set_allocator (some bump_alloc) none State.initial) =
      .abort (earcut_set_allocator (some bump_alloc) none State.initial) :=
  (earcut_create_unconfigured_abort example_platform 3 triangle_points 1 (by decide)
    (by decide)).2.2 State.initial (some bump_alloc) none (Or.inr rfl)

/-- C6: `earcut_free` aborts in the state it was called in, so without calling the free
function, when `result` is null, `result.num_indices` is zero or `result.indices` is null; in
every other case, with the allocator configured, it returns after exactly one call of the free
function, on the pointer stored in `result.indices`, and changes nothing else. -/
theorem earcut_free_contract (s : State) (result : Ptr) :
    (result = 0 ∨ (s.records result).num_indices = 0 ∨ (s.records result).indices = 0 →
      earcut_free result s = .abort s) ∧
    (result ≠ 0 → (s.records result).num_indices ≠ 0 → (s.records result).indices ≠ 0 →
      s.g_alloc_fn.isSome = true → s.g_free_fn.isSome = true →
      earcut_free result s =
        .ok () { s with calls := s.calls ++ [Call.free (s.records result).indices] }) := by
  refine ⟨earcut_free_abort s result, ?_⟩
  intro hr hnum hind ha hf
  obtain ⟨a, ha⟩ := Option.isSome_iff_exists.mp ha
  obtain ⟨f, hf⟩ := Option.isSome_iff_exists.mp hf
  exact earcut_free_run ha hf hr hnum hind

/-- C6 at a concrete input: a record holding 3 indices in buffer 11. -/
theorem earcut_free_contract_witness :
    earcut_free 1 held_result_state =
      .ok () { held_result_state with calls := held_result_state.calls ++ [Call.free 11] } :=
  (earcut_free_contract held_result_state 1).2 (by decide) (by decide) (by decide) rfl rfl

/-- C7, as the code has it: `earcut_free` leaves the record as it is, so a second `earcut_free`
on the same record passes the same assertions and hands the same pointer to the free function a
second time. Not releasing twice is left to the caller. -/
theorem earcut_free_twice_frees_twice (s : State) (result : Ptr) (hr : result ≠ 0)
    (hnum : (s.records result).num_indices ≠ 0) (hind : (s.records result).indices ≠ 0)
    (ha : s.g_alloc_fn.isSome = true) (hf : s.g_free_fn.isSome = true) :
    ∃ s1 s2, earcut_free result s = .ok () s1 ∧ earcut_free result s1 = .ok () s2 ∧
      s1.records = s.records ∧ s2.records = s.records ∧
      s2.calls = s.calls ++
        [Call.free (s.records result).indices, Call.free (s.records result).indices] := by
  obtain ⟨a, ha⟩ := Option.isSome_iff_exists.mp ha
  obtain ⟨f, hf⟩ := Option.isSome_iff_exists.mp hf
  exact earcut_free_twice_run ha hf hr hnum hind

/-- C7 as the code has it, at the record holding 3 indices in buffer 11. -/
theorem earcut_free_twice_frees_twice_witness :
    ∃ s1 s2, earcut_free 1 held_result_state = .ok () s1 ∧ earcut_free 1 s1 = .ok () s2 ∧
      s2.calls = held_result_state.calls ++ [Call.free 11, Call.free 11] := by
  obtain ⟨s1, s2, h1, h2, _, _, h3⟩ := earcut_free_twice_frees_twice held_result_state 1
    (by decide) (by decide) (by decide) rfl rfl
  exact ⟨s1, s2, h1, h2, h3⟩

/-- C7 as stated fails: for the record `earcut_create` produces for the triangle, the second
`earcut_free` returns instead of aborting, and the buffer has been handed to the free function
twice. -/
theorem double_release_not_detected :
    ∃ s1 s2 s3,
      earcut_create example_platform 3 (some triangle_points) 1 example_state = .ok () s1 ∧
      (s1.records 1).num_indices = 3 ∧
      earcut_free 1 s1 = .ok () s2 ∧ earcut_free 1 s2 = .ok () s3 ∧
      s3.calls = s1.calls ++ [Call.free (s1.records 1).indices, Call.free (s1.records 1).indices] := by
  have hL : (example_platform.earcut [marshal example_platform triangle_points 3]).indices =
      [0, 1, 2] := by decide
  have hne : (example_platform.earcut [marshal example_platform triangle_points 3]).indices ≠
      [] := by
    rw [hL]
    decide
  obtain ⟨t1, t2, hold, _, _, _, _, hok⟩ :=
    earcut_create_run example_platform 3 triangle_points 1 example_state
      (a := bump_alloc) (f := noop_free) rfl rfl (fun _ _ => Nat.succ_ne_zero _)
      (by decide) (by decide) (by decide)
  have hrec : ∀ r : earcut_result_t, Function.update example_state.records 1 r 1 = r :=
    fun r => Function.update_same _ _ _
  obtain ⟨s1, hs1, ha1, hf1, hnum1, hind1⟩ : ∃ s1 : State,
      earcut_create example_platform 3 (some triangle_points) 1 example_state = .ok () s1 ∧
      s1.g_alloc_fn = some bump_alloc ∧ s1.g_free_fn = some noop_free ∧
      (s1.records 1).num_indices = 3 ∧ (s1.records 1).indices ≠ 0 := by
    refine ⟨_, hok hne, rfl, rfl, ?_, ?_⟩
    · exact (congrArg earcut_result_t.num_indices (hrec _)).trans (congrArg List.length hL)
    · have h := congrArg earcut_result_t.indices (hrec
        { num_indices :=
            (example_platform.earcut [marshal example_platform triangle_points 3]).indices.length,
          indices := bump_alloc (example_state.calls ++ t1) (sizeof_uint32_t *
            (example_platform.earcut [marshal example_platform triangle_points 3]).indices.length) })
      intro h0
      exact Nat.succ_ne_zero _ (h.symm.trans h0)
  have hnum1' : (s1.records 1).num_indices ≠ 0 := by
    rw [hnum1]
    decide
  obtain ⟨s2, s3, h2, h3, _, _, hcalls⟩ :=
    earcut_free_twice_run ha1 hf1 (show (1 : Ptr) ≠ 0 by decide) hnum1' hind1
  exact ⟨s1, s2, s3, hs1, hnum1, h2, h3, hcalls⟩

/-- C8: for a successful `earcut_create` followed by `earcut_free` on its result, under one
configured allocate/free pair: over the two calls no buffer is handed to the free function
that is not outstanding at that moment, so each was returned by the allocate function and not
yet released; after `earcut_create` alone exactly one buffer is outstanding, `result.indices`;
after `earcut_free` none is. -/
theorem create_free_allocation_balance (P : Platform) (n : Nat) (pts : Nat → vec2_t)
    (result : Ptr) (s : State) {a : EarcutAllocFnType} {f : EarcutFreeFnType}
    (ha : s.g_alloc_fn = some a) (hf : s.g_free_fn = some f) (hnn : ∀ t n, a t n ≠ 0)
    (hb : (P.earcut [marshal P pts n]).balanced = true)
    (s1 : State) (hcreate : earcut_create P n (some pts) result s = .ok () s1) :
    ∃ s2 d1 d2, earcut_free result s1 = .ok () s2 ∧
      s1.calls = s.calls ++ d1 ∧ s2.calls = s1.calls ++ d2 ∧
      outstanding 0 d1 = some {(s1.records result).indices} ∧
      outstanding 0 (d1 ++ d2) = some 0 := by
  have hn : 3 ≤ n := by
    by_contra hlt
    rw [earcut_create_abort_of_precondition P n (some pts) result s
      (Or.inl (Nat.lt_of_not_le hlt))] at hcreate
    cases hcreate
  have hr : result ≠ 0 := by
    intro h0
    rw [earcut_create_abort_of_precondition P n (some pts) result s (Or.inr (Or.inr h0))]
      at hcreate
    cases hcreate
  obtain ⟨t1, t2, hold, hb1, hb2, _, habort, hok⟩ :=
    earcut_create_run P n pts result s ha hf hnn hn hr hb
  by_cases hL : (P.earcut [marshal P pts n]).indices = []
  · rw [habort hL] at hcreate
    cases hcreate
  · rw [hok hL] at hcreate
    injection hcreate with _ hs1
    have hlen : (P.earcut [marshal P pts n]).indices.length ≠ 0 :=
      fun h => hL (List.length_eq_zero.mp h)
    have ha1 : s1.g_alloc_fn = some a := by
      rw [← hs1]
      exact ha
    have hf1 : s1.g_free_fn = some f := by
      rw [← hs1]
      exact hf
    have hrec1 : s1.records result =
        { num_indices := (P.earcut [marshal P pts n]).indices.length,
          indices := a (s.calls ++ t1)
            (sizeof_uint32_t * (P.earcut [marshal P pts n]).indices.length) } := by
      rw [← hs1]
      exact Function.update_same _ _ _
    have hcalls1 : s1.calls = s.calls ++ (t1 ++
        Call.alloc (sizeof_uint32_t * (P.earcut [marshal P pts n]).indices.length)
          (a (s.calls ++ t1)
            (sizeof_uint32_t * (P.earcut [marshal P pts n]).indices.length)) :: t2) := by
      rw [← hs1]
      simp only [List.append_assoc]
    have hnum1 : (s1.records result).num_indices ≠ 0 := by
      rw [hrec1]
      exact hlen
    have hind1 : (s1.records result).indices ≠ 0 := by
      rw [hrec1]
      exact hnn _ _
    have hbal := Bal.around hb1 hb2
      (sizeof_uint32_t * (P.earcut [marshal P pts n]).indices.length)
      (a (s.calls ++ t1) (sizeof_uint32_t * (P.earcut [marshal P pts n]).indices.length))
    refine ⟨_, _, _, earcut_free_run ha1 hf1 hr hnum1 hind1, hcalls1, rfl, ?_, ?_⟩
    · rw [hrec1]
      exact hbal.outstanding_zero
    · rw [hrec1]
      exact (hbal.append (Bal.free _)).outstanding_zero

/-- C8 at a concrete input: the triangle under the bump allocator. -/
theorem create_free_allocation_balance_witness :
    ∃ s1 s2 d1 d2,
      earcut_create example_platform 3 (some triangle_points) 1 example_state = .ok () s1 ∧
      earcut_free 1 s1 = .ok () s2 ∧
      s1.calls = example_state.calls ++ d1 ∧ s2.calls = s1.calls ++ d2 ∧
      outstanding 0 d1 = some {(s1.records 1).indices} ∧
      outstanding 0 (d1 ++ d2) = some 0 := by
  have hne : (example_platform.earcut [marshal example_platform triangle_points 3]).indices ≠
      [] := by decide
  obtain ⟨_, _, _, _, _, _, _, hok⟩ :=
    earcut_create_run example_platform 3 triangle_points 1 example_state
      (a := bump_alloc) (f := noop_free) rfl rfl (fun _ _ => Nat.succ_ne_zero _)
      (by decide) (by decide) (by decide)
  obtain ⟨s2, d1, d2, h⟩ := create_free_allocation_balance example_platform 3 triangle_points 1
    example_state (a := bump_alloc) (f := noop_free) rfl rfl (fun _ _ => Nat.succ_ne_zero _)
    (by decide) _ (hok hne)
  exact ⟨_, s2, d1, d2, hok hne, h⟩

/-- C3: in every state a call of `earcut_create` can end in, the engine has been handed nothing
(an abort before the engine call) or exactly one polygon, and that polygon is the single ring
`marshal P pts n`: no hole ring, exactly `num_points` points, the `i`-th being
`(points[i].x, points[i].y)` widened to double, in input order; a call that returns has handed
it. With `num_points ≥ 3`, non-null arguments and a configured allocator the engine is handed
that polygon. -/
theorem earcut_create_hands_one_ring (P : Platform) (n : Nat) (points : Option (Nat → vec2_t))
    (result : Ptr) (s : State) :
    (match earcut_create P n points result s with
      | .ok _ s' => ∃ pts, points = some pts ∧ s'.handed = s.handed ++ [[marshal P pts n]]
      | .abort s' => s'.handed = s.handed ∨
          ∃ pts, points = some pts ∧ s'.handed = s.handed ++ [[marshal P pts n]]
      | .undefined => True) ∧
    (∀ pts : Nat → vec2_t, (marshal P pts n).length = n ∧
      ∀ i, i < n → (marshal P pts n).get? i = some (P.widen (pts i).x, P.widen (pts i).y)) ∧
    (∀ (pts : Nat → vec2_t) (a : EarcutAllocFnType) (f : EarcutFreeFnType),
      points = some pts → s.g_alloc_fn = some a → s.g_free_fn = some f → (∀ t k, a t k ≠ 0) →
      3 ≤ n → result ≠ 0 → (P.earcut [marshal P pts n]).balanced = true →
      ∃ s', (earcut_create P n points result s = .ok () s' ∨
          earcut_create P n points result s = .abort s') ∧
        s'.handed = s.handed ++ [[marshal P pts n]]) := by
  refine ⟨?_, ?_, ?_⟩
  · cases points with
    | none =>
      rw [earcut_create_abort_of_precondition P n none result s (Or.inr (Or.inl rfl))]
      exact Or.inl rfl
    | some pts =>
      have h := earcut_create_hands P n pts result s
      cases hrun : earcut_create P n (some pts) result s with
      | ok u s' =>
        rw [hrun] at h
        exact ⟨pts, rfl, h⟩
      | abort s' =>
        rw [hrun] at h
        rcases h with h | h
        · exact Or.inl h
        · exact Or.inr ⟨pts, rfl, h⟩
      | undefined => trivial
  · intro pts
    refine ⟨by simp [marshal], fun i hi => ?_⟩
    simp [marshal, List.getElem?_range, hi]
  · intro pts a f hp ha hf hnn hn hr hb
    subst hp
    obtain ⟨t1, t2, hold, _, _, _, habort, hok⟩ :=
      earcut_create_run P n pts result s ha hf hnn hn hr hb
    by_cases hL : (P.earcut [marshal P pts n]).indices = []
    · exact ⟨_, Or.inr (habort hL), rfl⟩
    · exact ⟨_, Or.inl (hok hL), rfl⟩

/-- C3 at a concrete input: the triangle reaches the engine as one ring of three points. -/
theorem earcut_create_hands_one_ring_witness :
    ∃ s', (earcut_create example_platform 3 (some triangle_points) 1 example_state = .ok () s' ∨
        earcut_create example_platform 3 (some triangle_points) 1 example_state = .abort s') ∧
      s'.handed = [[[({ bits := 0 }, { bits := 0 }),
        ({ bits := 0x3FF0000000000000 }, { bits := 0 }),
        ({ bits := 0 }, { bits := 0x3FF0000000000000 })]]] := by
  obtain ⟨s', h1, h2⟩ := (earcut_create_hands_one_ring example_platform 3
    (some triangle_points) 1 example_state).2.2 triangle_points bump_alloc noop_free rfl rfl rfl
    (fun _ _ => Nat.succ_ne_zero _) (by decide) (by decide) (by decide)
  refine ⟨s', h1, h2.trans ?_⟩
  decide

end Earcut
